import Mathlib

/-!
# Verification of the octastd path / directory subsystem

A shallow embedding of the path-manipulation and directory-enumeration code
of the `octastd` repository, together with theorems settling the frozen
claims about it.

Sources embedded:
* `src/ostd/path.hh` — the `ostd::path` value type: construction from a
  string, normalization (`cleanup_str`, `strip_trailing`, `append_str`),
  structural accessors (`drive`, `root`, `anchor`, `parent`, `name`,
  `stem`, `suffix`, `suffixes`), joining and format conversion.
* `src/src/posix/path.cc` — `fs::status` / `fs::symlink_status`,
  `dir_read_next`, `dir_range_impl` and `rdir_range_impl` (single-level and
  recursive directory cursors over raw OS directory handles).
* `src/ostd/filesystem.hh` — the older-generation `DirectoryStream`
  (POSIX variant): `open`, `close`, `pop_front`.

Strings are modelled as `List Char`.  C strings are NUL-terminated, and the
C++ code freely reads the terminator (e.g. `p[cnt + 1]` one past the last
character); the helper `nthc` models any read at or beyond the end of the
buffer as `'\x00'`.
-/

set_option autoImplicit false

namespace Octastd

/-- Read character `i` of a C++ string buffer; at or past the end this reads
the NUL terminator, modelled as `'\x00'`. -/
def nthc (s : List Char) (i : Nat) : Char :=
  s.getD i '\x00'

/-- Model of `std::string::back()`.  On an empty string this is undefined
behaviour in C++; we model it as reading the terminator. -/
def lastc (s : List Char) : Char :=
  s.getLast? |>.getD '\x00'

/-- `path::is_sep` from `src/ostd/path.hh`: both separator characters are
recognised regardless of format. -/
def isSep (c : Char) : Bool :=
  c == '/' || c == '\\'

/-- Model of `std::string::erase(pos, len)` (clamping `len` to the string
end, exactly as C++ does; a `pos` beyond the end would throw in C++ and is
never reached at the embedded call sites under their invariants). -/
def eraseSub (s : List Char) (pos len : Nat) : List Char :=
  s.take pos ++ s.drop (pos + len)

/-- The three `path::format` values. -/
inductive Format where
  | native
  | posix
  | windows
deriving DecidableEq, Repr

/-- The path value type: the raw string plus its format tag
(`ostd::path`'s fields `p_path` and `p_fmt`). -/
structure Path where
  p_path : List Char
  p_fmt : Format
deriving DecidableEq, Repr

namespace Path

/-- `path::path_fmt`: resolve `native` to the host convention.  The
embedded build is the POSIX one (`src/src/posix/path.cc` is the compiled
implementation file), so `native` resolves to `posix`. -/
def path_fmt : Format → Format
  | .native => .posix
  | .posix => .posix
  | .windows => .windows

/-- `path::separator()`: `seps[] = { native_separator, '/', '\\' }` with
`native_separator = '/'` on the POSIX build. -/
def separator (p : Path) : Char :=
  match p.p_fmt with
  | .native => '/'
  | .posix => '/'
  | .windows => '\\'

/-- `path::is_win()`. -/
def isWin (p : Path) : Bool :=
  path_fmt p.p_fmt == .windows

/-- `path::has_letter`: a two-character drive prefix `X:`. -/
def hasLetter (s : List Char) : Bool :=
  decide (2 ≤ s.length) &&
    (nthc s 1 == ':') &&
    (97 ≤ ((nthc s 0).toNat ||| 32)) &&
    (((nthc s 0).toNat ||| 32) ≤ 122)

/-- `path::has_dslash`: a leading `\\` pair. -/
def hasDslash (s : List Char) : Bool :=
  decide (2 ≤ s.length) && (s.take 2 == ['\\', '\\'])

/-- The inner `cnt` loop of `path::cleanup_str`: after an initial separator
has been seen, consume the rest of its run — further separators, and a `.`
that is followed by a separator (consuming both) or that terminates the
string. -/
def dropRun : List Char → List Char
  | [] => []
  | d :: ds =>
    if isSep d then dropRun ds
    else if d == '.' && (isSep (nthc ds 0) || nthc ds 0 == '\x00') then
      match ds with
      | [] => []
      | _ :: es => dropRun es
    else d :: ds

theorem dropRun_cons (d : Char) (ds : List Char) :
    dropRun (d :: ds) =
      if isSep d then dropRun ds
      else if d == '.' && (isSep (nthc ds 0) || nthc ds 0 == '\x00') then dropRun ds.tail
      else d :: ds := by
  cases ds <;> simp [dropRun]

theorem tail_length_le {α : Type} (l : List α) : l.tail.length ≤ l.length := by
  cases l <;> simp

theorem dropRun_length_le : ∀ l : List Char, (dropRun l).length ≤ l.length
  | [] => by simp [dropRun]
  | d :: ds => by
    rw [dropRun_cons]
    split
    · exact Nat.le_trans (dropRun_length_le ds) (Nat.le_succ _)
    · split
      · exact Nat.le_trans (dropRun_length_le ds.tail)
          (Nat.le_trans (tail_length_le ds) (Nat.le_succ _))
      · exact Nat.le_refl _
termination_by l => l.length
decreasing_by
  all_goals simp only [List.length_cons, List.length_tail]
  all_goals omega

/-- The main scan loop of `path::cleanup_str`, with explicit fuel so that
the function is structurally recursive (the scan consumes at least one
character per step, so any fuel of at least the string length gives the
loop's behaviour; `cleanupLoop` below instantiates it that way): every
separator run (with its embedded `.` components) is replaced by the single
character `sep`; other characters pass through. -/
def cleanupLoopF (sep : Char) : Nat → List Char → List Char
  | 0, l => l
  | _, [] => []
  | f + 1, c :: rest =>
    if isSep c then sep :: cleanupLoopF sep f (dropRun rest)
    else c :: cleanupLoopF sep f rest

/-- The main scan loop of `path::cleanup_str`. -/
def cleanupLoop (sep : Char) (l : List Char) : List Char :=
  cleanupLoopF sep l.length l

theorem cleanupLoopF_nil (sep : Char) : ∀ f, cleanupLoopF sep f [] = []
  | 0 => rfl
  | _ + 1 => rfl

theorem cleanupLoopF_congr (sep : Char) :
    ∀ (f₁ f₂ : Nat) (l : List Char), l.length ≤ f₁ → l.length ≤ f₂ →
      cleanupLoopF sep f₁ l = cleanupLoopF sep f₂ l
  | f₁, f₂, [], _, _ => by
    rw [cleanupLoopF_nil, cleanupLoopF_nil]
  | 0, _, _ :: _, h₁, _ => absurd h₁ (by simp)
  | _ + 1, 0, _ :: _, _, h₂ => absurd h₂ (by simp)
  | f₁ + 1, f₂ + 1, c :: rest, h₁, h₂ => by
    rw [cleanupLoopF, cleanupLoopF]
    have hr₁ : (dropRun rest).length ≤ f₁ :=
      Nat.le_trans (dropRun_length_le rest) (Nat.le_of_succ_le_succ h₁)
    have hr₂ : (dropRun rest).length ≤ f₂ :=
      Nat.le_trans (dropRun_length_le rest) (Nat.le_of_succ_le_succ h₂)
    split
    · rw [cleanupLoopF_congr sep f₁ f₂ (dropRun rest) hr₁ hr₂]
    · rw [cleanupLoopF_congr sep f₁ f₂ rest (Nat.le_of_succ_le_succ h₁)
        (Nat.le_of_succ_le_succ h₂)]

theorem cleanupLoop_nil (sep : Char) : cleanupLoop sep [] = [] := rfl

theorem cleanupLoop_cons (sep : Char) (c : Char) (rest : List Char) :
    cleanupLoop sep (c :: rest) =
      if isSep c then sep :: cleanupLoop sep (dropRun rest)
      else c :: cleanupLoop sep rest := by
  show cleanupLoopF sep (rest.length + 1) (c :: rest) = _
  rw [cleanupLoopF]
  unfold cleanupLoop
  split
  · rw [cleanupLoopF_congr sep rest.length (dropRun rest).length (dropRun rest)
      (dropRun_length_le rest) (Nat.le_refl _)]
  · rfl

/-- `path::cleanup_str(s, sep, allow_twoslash)`: the leading double-separator
exemption for Windows paths, the leading `./` (or lone `.`) erasure, and the
main separator-run replacement scan. -/
def cleanupStr (s : List Char) (sep : Char) (allowTwoslash : Bool) : List Char :=
  let start := if allowTwoslash && isSep (nthc s 0) && isSep (nthc s 1) then 1 else 0
  let s2 :=
    if nthc s start == '.' && (isSep (nthc s (start + 1)) || nthc s (start + 1) == '\x00') then
      eraseSub s start (2 - (if nthc s (start + 1) == '\x00' then 1 else 0))
    else s
  s2.take start ++ cleanupLoop sep (s2.drop start)

/-- `path::strip_trailing(sep)`: drop one trailing separator, except on the
protected short forms (`\\` and `X:\` for Windows, any string of length at
most one for the other formats). -/
def stripTrailing (pp : List Char) (sep : Char) : List Char :=
  if sep == '\\' then
    if decide (pp.length ≤ 2) && (nthc pp 0 == '\\') && (nthc pp 1 == '\\') then pp
    else if decide (pp.length ≤ 3) && hasLetter pp then pp
    else if lastc pp == sep then pp.dropLast else pp
  else if pp.length ≤ 1 then pp
  else if lastc pp == sep then pp.dropLast else pp

/-- The part of `path::append_str` after the `cleanup_str` call: either
replace the stored path (rooted or drive-letter input), or append the string
after a separator, and finally strip a trailing separator. -/
def appendCore (p : Path) (s : List Char) : Path :=
  { p_path :=
      stripTrailing
        (if nthc s 0 == separator p || (isWin p && hasLetter s) then s
         else if s ≠ [] then
           if p.p_path = ['.'] then s
           else if lastc p.p_path ≠ separator p then p.p_path ++ [separator p] ++ s
           else p.p_path ++ s
         else p.p_path)
        (separator p),
    p_fmt := p.p_fmt }

/-- `path::append_str(s, norm)`: normalize the incoming string unless `norm`
says it already is, then replace/append and strip (`appendCore`). -/
def append_str (p : Path) (s0 : List Char) (norm : Bool) : Path :=
  appendCore p (if norm then s0 else cleanupStr s0 (separator p) (isWin p))

/-- The `path(R range, format fmt)` constructor for a string argument:
`p_path` starts as `"."`, then `append_str(std::string{range})`. -/
def ofString (s : List Char) (fmt : Format) : Path :=
  append_str { p_path := ['.'], p_fmt := fmt } s false

/-- `path::convert_path()`: rewrite separators into the current format; when
converting into a POSIX-separator format, collapse a leading `\\` UNC pair
to a single `/` first. -/
def convert_path (p : Path) : Path :=
  let froms := if separator p == '\\' then '/' else '\\'
  let tos := if separator p == '\\' then '\\' else '/'
  let pp :=
    if separator p == '\\' then p.p_path
    else if p.p_path.take 2 = ['\\', '\\'] then '/' :: p.p_path.drop 2
    else p.p_path
  { p_path := pp.map (fun c => if c == froms then tos else c), p_fmt := p.p_fmt }

/-- The `path(path const &p, format fmt)` constructor: copy the raw string,
retag, and convert when the resolved formats differ. -/
def withFormat (p : Path) (fmt : Format) : Path :=
  let q : Path := { p_path := p.p_path, p_fmt := fmt }
  if path_fmt fmt ≠ path_fmt p.p_fmt then convert_path q else q

/-- `ostd::find(range, c)` on a character range: the suffix starting at the
first occurrence of `c` (empty when there is none). -/
def findc (c : Char) : List Char → List Char
  | [] => []
  | x :: xs => if x == c then x :: xs else findc c xs

/-- `ostd::find_last(range, c)`: the suffix starting at the last occurrence
of `c` (empty when there is none). -/
def findLast (c : Char) : List Char → List Char
  | [] => []
  | x :: xs =>
    let r := findLast c xs
    if r ≠ [] then r else if x == c then x :: xs else []

/-- `path::drive()`.  For a UNC prefix the code searches the first `\` at or
after offset 2 (`strchr(p_path.data() + 2, '\\')`); `pendp = strchr(endp,
'\\')` starts at that very character and therefore returns it, so the drive
ends right before it. -/
def drive (p : Path) : List Char :=
  if isWin p then
    if hasDslash p.p_path then
      match findc '\\' (p.p_path.drop 2) with
      | [] => p.p_path
      | found => p.p_path.take (p.p_path.length - found.length)
    else if hasLetter p.p_path then p.p_path.take 2
    else []
  else []

/-- `path::get_rootp()` as the index of the root separator, if any. -/
def get_rootp (p : Path) : Option Nat :=
  if isWin p then
    if nthc p.p_path 0 == '\\' then some 0
    else if hasLetter p.p_path && (nthc p.p_path 2 == '\\') then some 2
    else none
  else if nthc p.p_path 0 == '/' then some 0
  else none

/-- `path::root()`: the one-character root, or empty. -/
def root (p : Path) : List Char :=
  match get_rootp p with
  | some i => [nthc p.p_path i]
  | none => []

/-- `path::anchor()`: the drive, extended by the separator that immediately
follows it in the raw string, or the root alone when there is no drive. -/
def anchor (p : Path) : List Char :=
  let dr := drive p
  if dr = [] then root p
  else if nthc p.p_path dr.length == separator p then p.p_path.take (dr.length + 1)
  else dr

/-- `path::relative_to_str(other)`: the remainder of the raw string after
the prefix `other` (plus one following separator, if present); empty when
`other` is not a prefix; the whole string when `other` is `"."`. -/
def relative_to_str (p : Path) (other : List Char) : List Char :=
  if other = ['.'] then p.p_path
  else
    let oplen := other.length
    if p.p_path.take oplen = other then
      let oplen :=
        if oplen < p.p_path.length && nthc p.p_path oplen == separator p then oplen + 1
        else oplen
      p.p_path.drop oplen
    else []

/-- `path::name()`: the part of the anchor-relative remainder after its last
separator. -/
def name (p : Path) : List Char :=
  let rel := relative_to_str p (anchor p)
  let sep := findLast (separator p) rel
  match sep with
  | [] => rel
  | _ :: t => t

/-- `path::has_name()`. -/
def has_name (p : Path) : Bool :=
  name p ≠ []

/-- `path::suffix()`: from the last `.` of the anchor-relative remainder. -/
def suffix (p : Path) : List Char :=
  findLast '.' (relative_to_str p (anchor p))

/-- `path::suffixes()`: from the first `.` of the name. -/
def suffixes (p : Path) : List Char :=
  findc '.' (name p)

/-- `path::has_suffix()`. -/
def has_suffix (p : Path) : Bool :=
  suffixes p ≠ []

/-- `path::stem()`: the name with `find(nm, '.')` removed from its end. -/
def stem (p : Path) : List Char :=
  let nm := name p
  nm.take (nm.length - (findc '.' nm).length)

/-- `path::has_stem()`. -/
def has_stem (p : Path) : Bool :=
  stem p ≠ []

/-- `path::has_parent()`: the anchor-relative remainder contains a
separator. -/
def has_parent (p : Path) : Bool :=
  findc (separator p) (relative_to_str p (anchor p)) ≠ []

/-- `path::parent()`: the raw-string prefix ending right before the last
separator of the anchor-relative remainder.  The returned range is
implicitly converted back to `path` by the string constructor, whose format
argument defaults to `format::native`. -/
def parent (p : Path) : Path :=
  let sep := findLast (separator p) (relative_to_str p (anchor p))
  if sep = [] then p
  else ofString (p.p_path.take (p.p_path.length - sep.length)) .native

/-- `path::append(p)` (also `operator/=`): `append_str` with `norm` set when
the resolved formats agree. -/
def append (p q : Path) : Path :=
  append_str p q.p_path (path_fmt q.p_fmt == path_fmt p.p_fmt)

/-- `path::join(p)`: append on a copy. -/
def join (p q : Path) : Path :=
  append p q

/-- Written from the spec's words, for comparison with the source accessors
(claim C5): "the last extension listed by `suffixes(p)`" — the final
`.`-started piece of the suffix chain. -/
def specLastSuffix (p : Path) : List Char :=
  findLast '.' (suffixes p)

/-- `path::remove_name()`: erase the name and the separator before it.  When
there is no name the C++ code returns unchanged (with a `TODO: throw`
comment); when the erase position would be out of range, `std::string::erase`
throws — that call site is unreachable under the invariants at which the
embedded code calls it, and is modelled as the identity. -/
def remove_name (p : Path) : Path :=
  let nm := name p
  if nm = [] then p
  else if p.p_path.length < nm.length + 1 then p
  else { p with p_path := eraseSub p.p_path (p.p_path.length - nm.length - 1) (nm.length + 1) }

end Path

/-! ## Normalized-path presentation

The spec's data-model invariant (§3) is that a `path` value's raw form is
normalized: segments separated by single separators, no embedded `.`
segments, no trailing separator except on a bare root / drive-root.  The
following render functions produce exactly such raw strings from a segment
list, and are used to quantify over "every path" in the claims. -/

/-- A well-formed path segment: non-empty, not the `.` segment, and free of
separators and NUL bytes. -/
def WfName (n : List Char) : Prop :=
  n ≠ [] ∧ n ≠ ['.'] ∧ ∀ c ∈ n, c ≠ '/' ∧ c ≠ '\\' ∧ c ≠ '\x00'

instance (n : List Char) : Decidable (WfName n) := by
  unfold WfName; infer_instance

/-- Join segments with a separator character. -/
def interSep (c : Char) : List (List Char) → List Char
  | [] => []
  | [s] => s
  | s :: rest => s ++ c :: interSep c rest

/-- The raw string of a normalized POSIX-format path: an optional root
followed by the separated segments. -/
def renderPosix (abs : Bool) (segs : List (List Char)) : List Char :=
  (if abs then ['/'] else []) ++ interSep '/' segs

/-- The raw string of a normalized absolute Windows path: either a
drive-rooted `X:\…` form or a UNC `\\…` form. -/
inductive WinAbs where
  | driveAbs (letter : Char) (segs : List (List Char))
  | uncAbs (segs : List (List Char))
deriving DecidableEq

/-- Render a normalized absolute Windows raw string. -/
def renderWinAbs : WinAbs → List Char
  | .driveAbs l segs => l :: ':' :: '\\' :: interSep '\\' segs
  | .uncAbs segs => '\\' :: '\\' :: interSep '\\' segs

/-- Well-formedness of an absolute Windows form: well-formed segments and,
for the drive form, an ASCII drive letter. -/
def WfWinAbs : WinAbs → Prop
  | .driveAbs l segs =>
      (97 ≤ (l.toNat ||| 32) ∧ (l.toNat ||| 32) ≤ 122) ∧ ∀ s ∈ segs, WfName s
  | .uncAbs segs => ∀ s ∈ segs, WfName s

instance (w : WinAbs) : Decidable (WfWinAbs w) := by
  cases w <;> (unfold WfWinAbs; infer_instance)

end Octastd

namespace Octastd
namespace Fs

/-! ## `src/src/posix/path.cc` — status probes and directory cursors

The libc boundary is modelled by passing the OS result in: a `stat` /
`lstat` call yields `Option Nat` (the `st_mode` word, or `none` for a
failure), `opendir` yields `Option (List Name)` (the stream of entry names
the handle will hand out, or `none` for a failure), and `readdir` consumes
that list.  `abort()` — process termination — is a distinguished outcome. -/

/-- Outcome of running code that may call `abort()`. -/
inductive OsOutcome (α : Type) where
  | ok (a : α)
  | aborted
deriving DecidableEq, Repr

/-- `file_type` (the declaration lives in the newer `path.hh` generation,
not under `src/`; the constructor set is fixed by `mode_to_type` in
`src/src/posix/path.cc` and by the spec §3). -/
inductive FileType where
  | unknown | regular | directory | symlink | fifo | block | character | socket
deriving DecidableEq, Repr

/-- `mode_to_type` from `src/src/posix/path.cc`, with the POSIX `S_IF*`
constants written in octal. -/
def mode_to_type (m : Nat) : FileType :=
  if m &&& 0o170000 = 0o060000 then .block
  else if m &&& 0o170000 = 0o020000 then .character
  else if m &&& 0o170000 = 0o010000 then .fifo
  else if m &&& 0o170000 = 0o100000 then .regular
  else if m &&& 0o170000 = 0o040000 then .directory
  else if m &&& 0o170000 = 0o120000 then .symlink
  else if m &&& 0o170000 = 0o140000 then .socket
  else .unknown

/-- The owner part of `mode_to_perms`: the C `switch` has no `break`s, so
each matching case falls through all later ones. -/
def permsOwner (m : Nat) : Nat :=
  if m &&& 0o700 = 0o400 then 0o400 ||| 0o200 ||| 0o100 ||| 0o700
  else if m &&& 0o700 = 0o200 then 0o200 ||| 0o100 ||| 0o700
  else if m &&& 0o700 = 0o100 then 0o100 ||| 0o700
  else if m &&& 0o700 = 0o700 then 0o700
  else 0

/-- The group part of `mode_to_perms` (fallthrough as above). -/
def permsGroup (m : Nat) : Nat :=
  if m &&& 0o070 = 0o040 then 0o040 ||| 0o020 ||| 0o010 ||| 0o070
  else if m &&& 0o070 = 0o020 then 0o020 ||| 0o010 ||| 0o070
  else if m &&& 0o070 = 0o010 then 0o010 ||| 0o070
  else if m &&& 0o070 = 0o070 then 0o070
  else 0

/-- The others part of `mode_to_perms` (fallthrough as above). -/
def permsOthers (m : Nat) : Nat :=
  if m &&& 0o007 = 0o004 then 0o004 ||| 0o002 ||| 0o001 ||| 0o007
  else if m &&& 0o007 = 0o002 then 0o002 ||| 0o001 ||| 0o007
  else if m &&& 0o007 = 0o001 then 0o001 ||| 0o007
  else if m &&& 0o007 = 0o007 then 0o007
  else 0

/-- `mode_to_perms` from `src/src/posix/path.cc`: the perms bitmask, with the
conventional POSIX bit values for the `perms` enumerators (the enum
declaration is not under `src/`; modelled from the spec's "permission
bitmask"). -/
def mode_to_perms (m : Nat) : Nat :=
  permsOwner m ||| permsGroup m ||| permsOthers m |||
    (if m &&& 0o4000 ≠ 0 then 0o4000 else 0) |||
    (if m &&& 0o2000 ≠ 0 then 0o2000 else 0) |||
    (if m &&& 0o1000 ≠ 0 then 0o1000 else 0)

/-- `file_status`: kind and permission bitmask (spec §3). -/
structure FileStatus where
  type : FileType
  perms : Nat
deriving DecidableEq, Repr

/-- `fs::status(p)` from `src/src/posix/path.cc`: on `stat` failure the code
runs `/* FIXME: throw */ abort();`. -/
def status (statResult : Option Nat) : OsOutcome FileStatus :=
  match statResult with
  | none => .aborted
  | some m => .ok ⟨mode_to_type m, mode_to_perms m⟩

/-- `fs::symlink_status(p)` from `src/src/posix/path.cc`: on `lstat` failure
the code runs `/* FIXME: throw */ abort();`. -/
def symlink_status (lstatResult : Option Nat) : OsOutcome FileStatus :=
  match lstatResult with
  | none => .aborted
  | some m => .ok ⟨mode_to_type m, mode_to_perms m⟩

/-- Directory entry names as handed out by `readdir`. -/
abbrev Name := List Char

/-- The `.` sentinel entry. -/
def dot : Name := ['.']

/-- The `..` sentinel entry. -/
def dotdot : Name := ['.', '.']

/-- The sentinel test of `dir_read_next`: `(nm == ".") || (nm == "..")`. -/
def isSentinel (n : Name) : Bool :=
  n == dot || n == dotdot

/-- `dir_read_next(dh, cur, base)` from `src/src/posix/path.cc`: read
entries, skipping the sentinels, and either assign `base.append(nm)` to the
current entry or clear it at end of stream.  Returns the new current entry
(`none` models a cleared `directory_entry`, whose path is empty — the
`directory_entry` declaration is not under `src/`; modelled from the spec's
empty-state DirectoryEntry) and the rest of the handle's stream. -/
def dirReadNext (base : Path) : List Name → Option Path × List Name
  | [] => (none, [])
  | nm :: rest =>
    if isSentinel nm then dirReadNext base rest
    else (some (Path.append base (Path.ofString nm .native)), rest)

/-- State of `dir_range_impl`: base path, the handle's remaining stream, and
the current entry. -/
structure DirState where
  p_dir : Path
  p_handle : List Name
  p_current : Option Path
deriving DecidableEq, Repr

/-- `dir_range_impl::open(p)`: `opendir` failure runs
`/* FIXME: throw */ abort();`; otherwise store the base and handle and read
the first entry. -/
def dirRangeOpen (p : Path) (osListing : Option (List Name)) : OsOutcome DirState :=
  match osListing with
  | none => .aborted
  | some l =>
    let r := dirReadNext p l
    .ok ⟨p, r.2, r.1⟩

/-- `dir_range_impl::read_next()`. -/
def dirRangeReadNext (st : DirState) : DirState :=
  let r := dirReadNext st.p_dir st.p_handle
  { st with p_current := r.1, p_handle := r.2 }

/-- The entries yielded by a single-level cursor run to exhaustion,
collected by iterating `dir_read_next` (with fuel, which
`dirYields` instantiates large enough to be irrelevant). -/
def dirYieldsAux (base : Path) : Nat → List Name → List Path
  | 0, _ => []
  | fuel + 1, l =>
    match dirReadNext base l with
    | (none, _) => []
    | (some p, rest) => p :: dirYieldsAux base fuel rest

/-- All entries yielded by a single-level cursor over the stream `l`. -/
def dirYields (base : Path) (l : List Name) : List Path :=
  dirYieldsAux base l.length l

/-! ## Handle accounting

OS directory handles are given identities so that acquisition and release
can be audited: `opendir` allocates a fresh id and records it open,
`closedir` removes it. -/

/-- The set (list) of currently-open handle ids, plus an allocation
counter. -/
structure World where
  nextId : Nat
  openIds : List Nat
deriving DecidableEq, Repr

/-- A successful `opendir`: allocate a fresh open handle id. -/
def World.alloc (w : World) : Nat × World :=
  (w.nextId, ⟨w.nextId + 1, w.nextId :: w.openIds⟩)

/-- `closedir`: the id is no longer open. -/
def World.closeH (w : World) (i : Nat) : World :=
  ⟨w.nextId, w.openIds.erase i⟩

/-- An open `DIR *` handle: its identity and the entries it has yet to hand
out. -/
structure Handle where
  id : Nat
  entries : List Name
deriving DecidableEq, Repr

/-! ## `src/ostd/filesystem.hh` — the older-generation `DirectoryStream`
(POSIX variant). -/

/-- `FILENAME_MAX` of the host libc (glibc: 4096). -/
def FILENAME_MAX : Nat := 4096

/-- `DirectoryStream` state: `p_d` (the `DIR *`), `p_de` (the current
`dirent`, as its name), `p_path`. -/
structure DStream where
  p_d : Option Handle
  p_de : Option Name
  p_path : List Char
deriving DecidableEq, Repr

/-- The `readdir`-and-skip-sentinels loop inside
`DirectoryStream::pop_front(DIR *, dirent **)`: at end of stream `*de` is
null and the result is `false`. -/
def dsReadSkip (i : Nat) : List Name → Bool × Option Name × Option Handle
  | [] => (false, none, some ⟨i, []⟩)
  | nm :: rest =>
    if isSentinel nm then dsReadSkip i rest
    else (true, some nm, some ⟨i, rest⟩)

/-- `DirectoryStream::pop_front(DIR *d, dirent **de)`: `if (!d) return
false;` leaves `*de` untouched; otherwise read, skipping sentinels. -/
def dsPopFront (d : Option Handle) (de : Option Name) : Bool × Option Name × Option Handle :=
  match d with
  | none => (false, de, none)
  | some h => dsReadSkip h.id h.entries

/-- `DirectoryStream::close()`: release the handle if open, null both
pointers; idempotent. -/
def DStream.close (st : DStream) (w : World) : DStream × World :=
  let w2 := match st.p_d with
    | some h => w.closeH h.id
    | none => w
  ({ st with p_d := none, p_de := none }, w2)

/-- `DirectoryStream::open(path)` from `src/ostd/filesystem.hh`: refuse when
already open or the path is over-long; otherwise `opendir` (the OS result is
passed in as `osListing`), read the first non-sentinel entry, and on failure
of that first read close up and report `false`. -/
def DStream.open (st : DStream) (pathArg : List Char) (osListing : Option (List Name))
    (w : World) : Bool × DStream × World :=
  if st.p_d.isSome || decide (pathArg.length > FILENAME_MAX) then (false, st, w)
  else
    let dw : Option Handle × World :=
      match osListing with
      | none => (none, w)
      | some l =>
        let aw := w.alloc
        (some ⟨aw.1, l⟩, aw.2)
    let st1 : DStream := { st with p_d := dw.1 }
    let r := dsPopFront st1.p_d st1.p_de
    let st2 : DStream := { st1 with p_d := r.2.2, p_de := r.2.1 }
    if !r.1 then
      let cw := st2.close dw.2
      (false, cw.1, cw.2)
    else (true, { st2 with p_path := pathArg }, dw.2)

/-! ## The filesystem tree backing the recursive cursor -/

/-- A finite filesystem subtree: files, and directories with named
children. -/
inductive FsNode where
  | file
  | dir (children : List (Name × FsNode))

mutual

/-- Depth of a subtree: a file is depth 0, a directory one more than its
deepest child. -/
def FsNode.depth : FsNode → Nat
  | .file => 0
  | .dir ch => 1 + childrenDepth ch

/-- Maximum depth over a child list. -/
def childrenDepth : List (Name × FsNode) → Nat
  | [] => 0
  | c :: cs => max c.2.depth (childrenDepth cs)

end

mutual

/-- Well-formed tree: every entry name is a well-formed segment (and not
`..`), recursively. -/
def FsNode.wfB : FsNode → Bool
  | .file => true
  | .dir ch => childrenWfB ch

/-- Well-formedness of a child list. -/
def childrenWfB : List (Name × FsNode) → Bool
  | [] => true
  | (n, t) :: cs => decide (WfName n) && !(n == dotdot) && t.wfB && childrenWfB cs

end

/-- Look up the first child with the given name. -/
def childOf (ch : List (Name × FsNode)) (nm : Name) : Option FsNode :=
  match ch with
  | [] => none
  | (n, t) :: cs => if n = nm then some t else childOf cs nm

/-- Resolve a relative segment chain in a subtree. -/
def lookupTree : FsNode → List Name → Option FsNode
  | t, [] => some t
  | .file, _ :: _ => none
  | .dir ch, nm :: r =>
    match childOf ch nm with
    | none => none
    | some c => lookupTree c r

/-- Split a raw string at a separator character (inverse of `interSep` on
separator-free segments). -/
def splitSegs (c : Char) : List Char → List (List Char)
  | [] => [[]]
  | x :: xs =>
    if x == c then [] :: splitSegs c xs
    else
      match splitSegs c xs with
      | [] => [[x]]
      | s :: ss => (x :: s) :: ss

/-- Interpret a raw path string relative to the base directory's raw
string. -/
def relOf (baseRaw : List Char) (s : List Char) : Option (List Name) :=
  if s = baseRaw then some []
  else if (baseRaw ++ ['/']).isPrefixOf s then
    some (splitSegs '/' (s.drop (baseRaw.length + 1)))
  else none

/-- The OS-metadata view of the tree `root` mounted at `baseRaw`, keyed by
raw path strings. -/
def fsQuery (root : FsNode) (baseRaw : List Char) (s : List Char) : Option FsNode :=
  (relOf baseRaw s).bind (lookupTree root)

/-- The stream `opendir` hands out for a directory: the OS also reports the
`.` and `..` sentinel entries (their position in the stream is unspecified;
fixed first here), then the children. -/
def listingOf (ch : List (Name × FsNode)) : List Name :=
  dot :: dotdot :: ch.map Prod.fst

/-- `opendir` against the modelled filesystem: succeeds exactly on paths
naming directories. -/
def opendirM (fsq : List Char → Option FsNode) (s : List Char) : Option (List Name) :=
  match fsq s with
  | some (.dir ch) => some (listingOf ch)
  | _ => none

/-- Raw path of a `directory_entry`, the empty string for the cleared
state.  Modelled from the spec: the `directory_entry` declaration is not
under `src/`; spec §3 makes it a Path snapshot with an empty state. -/
def entryRaw : Option Path → List Char
  | none => []
  | some p => p.p_path

/-- `fs::is_directory(p)` — Modelled from the spec: the declaration is not
under `src/`; spec §4.3/§4.5 classify an entry as a directory via the
FileStatusProbe, and a path that does not resolve is not a directory. -/
def isDirectoryM (fsq : List Char → Option FsNode) (s : List Char) : Bool :=
  match fsq s with
  | some (.dir _) => true
  | _ => false

/-- State of `rdir_range_impl`: the stack of open handles (top first), the
current containing directory, and the current entry. -/
structure RState where
  p_handles : List (Nat × List Name)
  p_dir : Path
  p_current : Option Path
deriving DecidableEq, Repr

/-- The sibling-advance tail of `rdir_range_impl::read_next()` (everything
after the comment "didn't recurse into a directory, go to next file"):
advance the innermost handle; at its end close and pop it and read once from
the parent (after `p_dir.remove_name()`), or clear the current entry when
the stack empties. -/
def rdirAdvanceTop (st : RState) (w : World) (top : Nat × List Name)
    (tl : List (Nat × List Name)) : RState × World :=
  let r := dirReadNext st.p_dir top.2
  match r.1 with
  | some _ => ({ st with p_handles := (top.1, r.2) :: tl, p_current := r.1 }, w)
  | none =>
    let w2 := w.closeH top.1
    match tl with
    | [] => ({ st with p_handles := [], p_current := none }, w2)
    | t2 :: tl2 =>
      let pd := Path.remove_name st.p_dir
      let r2 := dirReadNext pd t2.2
      ({ p_handles := (t2.1, r2.2) :: tl2, p_dir := pd, p_current := r2.1 }, w2)

/-- `rdir_range_impl::read_next()` from `src/src/posix/path.cc`.  `none`
models the `abort()` on a failed `opendir` of the current entry.  If the
current entry is a directory, open it and read its first entry; a non-empty
subdirectory is pushed and becomes current, an empty one is closed again and
control falls through to sibling advancement. -/
def rdirReadNext (fsq : List Char → Option FsNode) (st : RState) (w : World) :
    Option (RState × World) :=
  match st.p_handles with
  | [] => some (st, w)
  | top :: tl =>
    if isDirectoryM fsq (entryRaw st.p_current) then
      match opendirM fsq (entryRaw st.p_current) with
      | none => none
      | some listing =>
        let aw := w.alloc
        let based := (st.p_current).getD { p_path := [], p_fmt := .native }
        let r := dirReadNext based listing
        match r.1 with
        | some _ =>
          some ({ p_handles := (aw.1, r.2) :: st.p_handles, p_dir := based,
                  p_current := r.1 }, aw.2)
        | none =>
          some (rdirAdvanceTop st (aw.2.closeH aw.1) top tl)
    else
      some (rdirAdvanceTop st w top tl)

/-- `rdir_range_impl::open(p)`: `opendir` failure runs
`/* FIXME: throw */ abort();` (modelled as `none`); otherwise push the
handle and read the first entry. -/
def rdirOpen (fsq : List Char → Option FsNode) (p : Path) (w : World) :
    Option (RState × World) :=
  match opendirM fsq p.p_path with
  | none => none
  | some l =>
    let aw := w.alloc
    rdirReadNext fsq ⟨[(aw.1, l)], p, none⟩ aw.2

/-- `rdir_range_impl::close()`: pop and close every remaining handle. -/
def rdirClose (st : RState) (w : World) : RState × World :=
  ({ st with p_handles := [] }, st.p_handles.foldl (fun w h => w.closeH h.1) w)

/-- `k` advance steps from a state (propagating an `abort`). -/
def rdirSteps (fsq : List Char → Option FsNode) : Nat → Option (RState × World) →
    Option (RState × World)
  | 0, s => s
  | k + 1, s => rdirSteps fsq k (s.bind fun sw => rdirReadNext fsq sw.1 sw.2)

/-- The cursor state after opening at `p` and advancing `k` times, starting
from a world with no open handles. -/
def rdirTrace (fsq : List Char → Option FsNode) (p : Path) (k : Nat) :
    Option (RState × World) :=
  rdirSteps fsq k (rdirOpen fsq p ⟨0, []⟩)

/-- The relative chain `r` names a directory of the tree. -/
def IsDirAt (root : FsNode) (r : List Name) : Prop :=
  ∃ ch, lookupTree root r = some (FsNode.dir ch)

/-- The handle-stack invariant of the recursive cursor (claim C4): the open
handle ids are exactly the stack's ids (top first, fresh ids below the
allocation counter, no duplicates); every entry still queued on a stacked
handle is a sentinel or a well-formed name; and the stack is either fully
popped (with the current entry cleared) or mirrors a chain of nested
directories of the tree, with the current entry (when set) an entry of the
innermost one. -/
def RInv (root : FsNode) (abs : Bool) (bsegs : List (List Char)) (fmt : Format)
    (st : RState) (w : World) : Prop :=
  w.openIds = st.p_handles.map Prod.fst ∧
  (∀ i ∈ w.openIds, i < w.nextId) ∧
  w.openIds.Nodup ∧
  (∀ f ∈ st.p_handles, ∀ nm ∈ f.2, isSentinel nm = true ∨ WfName nm) ∧
  ((st.p_handles = [] ∧ st.p_current = none) ∨
    ∃ rel : List Name,
      st.p_handles.length = rel.length + 1 ∧
      (∀ s ∈ rel, WfName s) ∧
      (∀ k, k ≤ rel.length → IsDirAt root (rel.take k)) ∧
      st.p_dir = (⟨renderPosix abs (bsegs ++ rel), fmt⟩ : Path) ∧
      (st.p_current = none ∨ ∃ nm, WfName nm ∧
        st.p_current = some (⟨renderPosix abs ((bsegs ++ rel) ++ [nm]), fmt⟩ : Path)))

end Fs
end Octastd

namespace Octastd

/-! ## Helper lemmas about the range-search primitives -/

namespace Path

theorem findc_suffix (c : Char) : ∀ l : List Char, findc c l <:+ l
  | [] => List.suffix_refl _
  | x :: xs => by
    rw [findc]
    split
    · exact List.suffix_refl _
    · exact (findc_suffix c xs).trans (List.suffix_cons x xs)

theorem findc_head (c : Char) :
    ∀ l : List Char, findc c l ≠ [] → ∃ t, findc c l = c :: t
  | [] => by simp [findc]
  | x :: xs => by
    rw [findc]
    split
    · next h => exact fun _ => ⟨xs, by rw [eq_of_beq h]⟩
    · exact findc_head c xs

theorem take_append_of_suffix {l s : List Char} (h : s <:+ l) :
    l.take (l.length - s.length) ++ s = l := by
  obtain ⟨t, rfl⟩ := h
  simp [List.take_left']

/-- `stem` and `suffixes` partition `name` exactly. -/
theorem stem_append_suffixes (p : Path) : stem p ++ suffixes p = name p := by
  unfold stem suffixes
  exact take_append_of_suffix (findc_suffix '.' (name p))

end Path

/-! ## Claim C1 -/

/-- **C1** (code_bug evidence): on an OS metadata failure the status probes
and the directory-cursor opens do not report a structured error — they call
`abort()` (`/* FIXME: throw */`), terminating the process. -/
theorem c1_probes_abort_on_os_failure :
    Fs.status none = .aborted ∧
    Fs.symlink_status none = .aborted ∧
    (∀ p : Path, Fs.dirRangeOpen p none = .aborted) ∧
    (∀ (p : Path) (w : Fs.World), Fs.rdirOpen (fun _ => none) p w = none) :=
  ⟨rfl, rfl, fun _ => rfl, fun _ _ => rfl⟩

/-! ## Claim C5 -/

/-- **C5** (counterexample): for `p = "a.b.c"` the name is not rebuilt from
the stem, a dot and the last extension of the suffix chain — under either
reading of "last extension" (`".c"` or `"c"`).  The accessors are taken from
the source; `specLastSuffix` is written from the spec's words. -/
theorem c5_counterexample :
    Path.has_suffix (Path.ofString ['a', '.', 'b', '.', 'c'] .posix) = true ∧
    Path.stem (Path.ofString ['a', '.', 'b', '.', 'c'] .posix) ++
        '.' :: Path.specLastSuffix (Path.ofString ['a', '.', 'b', '.', 'c'] .posix) ≠
      Path.name (Path.ofString ['a', '.', 'b', '.', 'c'] .posix) ∧
    Path.stem (Path.ofString ['a', '.', 'b', '.', 'c'] .posix) ++
        '.' :: (Path.specLastSuffix (Path.ofString ['a', '.', 'b', '.', 'c'] .posix)).tail ≠
      Path.name (Path.ofString ['a', '.', 'b', '.', 'c'] .posix) := by
  refine ⟨by decide, by decide, by decide⟩

/-- **C5** (amended): whenever `has_suffix(p)`, the name is rebuilt from the
stem, a dot, and the *whole* suffix chain after its leading dot:
`stem(p) ++ "." ++ tail(suffixes(p)) == name(p)`. -/
theorem c5_stem_dot_suffixes_eq_name (p : Path) (h : Path.has_suffix p = true) :
    Path.stem p ++ '.' :: (Path.suffixes p).tail = Path.name p := by
  have hs : Path.suffixes p ≠ [] := by
    simpa [Path.has_suffix] using h
  obtain ⟨t, ht⟩ := Path.findc_head '.' (Path.name p) (by simpa [Path.suffixes] using hs)
  have hp : Path.suffixes p = '.' :: t := by simpa [Path.suffixes] using ht
  calc
    Path.stem p ++ '.' :: (Path.suffixes p).tail
        = Path.stem p ++ Path.suffixes p := by rw [hp]; rfl
    _ = Path.name p := Path.stem_append_suffixes p

/-- Witness for `c5_stem_dot_suffixes_eq_name` at `p = "report.txt"`. -/
theorem c5_witness :
    Path.has_suffix (Path.ofString ['r', '.', 't', 'x', 't'] .posix) = true ∧
    Path.stem (Path.ofString ['r', '.', 't', 'x', 't'] .posix) ++
        '.' :: (Path.suffixes (Path.ofString ['r', '.', 't', 'x', 't'] .posix)).tail =
      Path.name (Path.ofString ['r', '.', 't', 'x', 't'] .posix) :=
  ⟨by decide, c5_stem_dot_suffixes_eq_name _ (by decide)⟩

/-! ## Claim C8 -/

/-- **C8** (code_bug evidence): the Windows-format bare root is not
preserved — constructing a path from the one-character string `"\"` yields
the empty raw string (the guard in `strip_trailing` protects `\\` and `X:\`
but not `\`), and re-normalizing that result yields `"."`, so normalization
is not idempotent. -/
theorem c8_windows_bare_root_not_idempotent :
    (Path.ofString ['\\'] .windows).p_path = [] ∧
    (Path.ofString ((Path.ofString ['\\'] .windows).p_path) .windows).p_path = ['.'] := by
  refine ⟨by decide, by decide⟩

/-! ## Claim C9 -/

namespace Path

theorem stripTrailing_posix (pp : List Char) :
    stripTrailing pp '/' =
      if pp.length ≤ 1 then pp
      else if lastc pp == '/' then pp.dropLast else pp := by
  unfold stripTrailing
  rw [if_neg (by decide)]

theorem dropRun_head : ∀ (l : List Char) (d : Char) (t : List Char),
    dropRun l = d :: t → isSep d = false
  | [] => by intro d t h; simp [dropRun] at h
  | x :: xs => by
    intro d t h
    rw [dropRun_cons] at h
    by_cases hx : isSep x = true
    · rw [if_pos hx] at h
      exact dropRun_head xs d t h
    · rw [if_neg hx] at h
      by_cases hdot : (x == '.' && (isSep (nthc xs 0) || nthc xs 0 == '\x00')) = true
      · rw [if_pos hdot] at h
        exact dropRun_head xs.tail d t h
      · rw [if_neg hdot] at h
        injection h with h1 _
        subst h1
        simpa using hx
termination_by l => l.length
decreasing_by
  all_goals simp only [List.length_cons, List.length_tail]
  all_goals omega

theorem cleanupLoop_chars (sep : Char) :
    ∀ l : List Char, ∀ c ∈ cleanupLoop sep l, c = sep ∨ isSep c = false
  | [] => by simp [cleanupLoop_nil]
  | x :: rest => by
    rw [cleanupLoop_cons]
    split
    · intro c hc
      rcases List.mem_cons.mp hc with rfl | hc
      · exact Or.inl rfl
      · exact cleanupLoop_chars sep (dropRun rest) c hc
    · next hx =>
      intro c hc
      rcases List.mem_cons.mp hc with rfl | hc
      · exact Or.inr (by simpa using hx)
      · exact cleanupLoop_chars sep rest c hc
termination_by l => l.length
decreasing_by
  all_goals simp only [List.length_cons]
  all_goals first
    | exact Nat.lt_succ_of_le (dropRun_length_le _)
    | exact Nat.lt_succ_of_le (Nat.le_refl _)

theorem cleanupLoop_not_two_seps (sep : Char) (l : List Char) (a b : Char)
    (t : List Char) (h : cleanupLoop sep l = a :: b :: t) :
    isSep a = false ∨ isSep b = false := by
  cases l with
  | nil => simp [cleanupLoop_nil] at h
  | cons x rest =>
    rw [cleanupLoop_cons] at h
    split at h
    · injection h with h1 h2
      subst h1
      cases hd : dropRun rest with
      | nil => rw [hd, cleanupLoop_nil] at h2; cases h2
      | cons d t2 =>
        have hdns : isSep d = false := dropRun_head rest d t2 hd
        rw [hd, cleanupLoop_cons, if_neg (by simp [hdns])] at h2
        injection h2 with h3 _
        subst h3
        exact Or.inr hdns
    · next hx =>
      injection h with h1 _
      subst h1
      exact Or.inl (by simpa using hx)

theorem cleanupStr_posix_ex (s : List Char) :
    ∃ l, cleanupStr s '/' false = cleanupLoop '/' l := by
  unfold cleanupStr
  simp only [Bool.false_and, if_false, List.take_zero, List.drop_zero,
    List.nil_append]
  exact ⟨_, rfl⟩

/-- Every raw string an `ofString` at POSIX format produces is
`strip_trailing` applied to either `"."` or a `cleanupLoop` output. -/
theorem ofString_posix_shape (s : List Char) (P : List Char → Prop)
    (hdot : P (stripTrailing ['.'] '/'))
    (hcl : ∀ l, P (stripTrailing (cleanupLoop '/' l) '/')) :
    P (ofString s .posix).p_path := by
  obtain ⟨l, hl⟩ := cleanupStr_posix_ex s
  show P (appendCore { p_path := ['.'], p_fmt := .posix } (cleanupStr s '/' false)).p_path
  rw [hl]
  unfold appendCore
  simp only [show separator { p_path := ['.'], p_fmt := Format.posix } = '/' from rfl,
    show isWin { p_path := ['.'], p_fmt := Format.posix } = false from rfl,
    Bool.false_and, Bool.or_false]
  split
  · exact hcl l
  · split
    · try simp only [if_pos rfl]
      exact hcl l
    · exact hdot

/-- The raw string a POSIX-format construction produces contains no
backslash: `cleanup_str` treats `\` as a separator and rewrites it to
`/`. -/
theorem ofString_posix_no_backslash (s : List Char) :
    ∀ c ∈ (ofString s .posix).p_path, c ≠ '\\' := by
  have hstrip : ∀ pp : List Char, (∀ y ∈ pp, y ≠ '\\') →
      ∀ y ∈ stripTrailing pp '/', y ≠ '\\' := by
    intro pp hpp y hy
    rw [stripTrailing_posix] at hy
    split at hy
    · exact hpp y hy
    · split at hy
      · exact hpp y ((List.dropLast_sublist pp).subset hy)
      · exact hpp y hy
  refine ofString_posix_shape s (fun r => ∀ c ∈ r, c ≠ '\\') ?_ ?_
  · refine hstrip _ ?_
    intro y hy
    simp only [List.mem_singleton] at hy
    subst hy; decide
  · intro l
    refine hstrip _ ?_
    intro y hy
    rcases cleanupLoop_chars '/' l y hy with rfl | hns
    · decide
    · intro hcontra
      rw [hcontra] at hns
      simp [isSep] at hns

/-- The raw string a POSIX-format construction produces never starts with
two separators. -/
theorem ofString_posix_no_leading_double (s : List Char) (t : List Char) :
    (ofString s .posix).p_path ≠ '/' :: '/' :: t := by
  have key : ∀ pp : List Char,
      (∀ (b : Char) (u : List Char), pp = '/' :: b :: u → isSep b = false) →
      ∀ u : List Char, stripTrailing pp '/' ≠ '/' :: '/' :: u := by
    intro pp hpp u hst
    rw [stripTrailing_posix] at hst
    have hpp2 : ∃ u2 : List Char, pp = '/' :: '/' :: u2 := by
      split at hst
      · next hlen => rw [hst] at hlen; simp at hlen
      · split at hst
        · have hpre := List.dropLast_prefix pp
          rw [hst] at hpre
          obtain ⟨u3, hu3⟩ := hpre
          exact ⟨u ++ u3, by simpa using hu3.symm⟩
        · exact ⟨u, hst⟩
    obtain ⟨u2, hu2⟩ := hpp2
    have := hpp '/' u2 hu2
    simp [isSep] at this
  revert t
  refine ofString_posix_shape s
    (fun r => ∀ t : List Char, r ≠ '/' :: '/' :: t) ?_ ?_
  · intro t
    apply key
    intro b u h
    cases h
  · intro l t
    apply key
    intro b u h
    rcases cleanupLoop_not_two_seps '/' l '/' b u h with hbad | hb
    · simp [isSep] at hbad
    · exact hb

/-- Separator rewriting round-trips on raw strings without backslashes and
without a leading double separator. -/
theorem convert_roundtrip (p : Path) (hfmt : p.p_fmt = Format.posix)
    (hb : ∀ c ∈ p.p_path, c ≠ '\\')
    (hdd : ∀ t, p.p_path ≠ '/' :: '/' :: t) :
    withFormat (withFormat p .windows) .posix = p := by
  obtain ⟨r, fmt⟩ := p
  simp only at hfmt hb hdd
  subst hfmt
  have h1 : withFormat (⟨r, Format.posix⟩ : Path) .windows =
      convert_path ⟨r, Format.windows⟩ := rfl
  have h1b : convert_path (⟨r, Format.windows⟩ : Path) =
      ⟨r.map (fun c => if c == '/' then '\\' else c), Format.windows⟩ := by
    unfold convert_path
    simp only [show separator ⟨r, Format.windows⟩ = '\\' from rfl,
      show (('\\' : Char) == '\\') = true from rfl, if_pos]
  rw [h1, h1b]
  have h2 : withFormat (⟨r.map (fun c => if c == '/' then '\\' else c),
        Format.windows⟩ : Path) .posix =
      convert_path ⟨r.map (fun c => if c == '/' then '\\' else c),
        Format.posix⟩ := rfl
  rw [h2]
  unfold convert_path
  simp only [show separator (⟨r.map (fun c => if c == '/' then '\\' else c),
      Format.posix⟩ : Path) = '/' from rfl,
    show (('/' : Char) == '\\') = false from rfl, Bool.false_eq_true, if_false]
  have hnotunc : ¬ (r.map (fun c => if c == '/' then '\\' else c)).take 2 = ['\\', '\\'] := by
    intro hu
    rw [← List.map_take] at hu
    have hlen2 : (r.take 2).length = 2 := by
      have := congrArg List.length hu
      simpa using this
    obtain ⟨a, b, hab⟩ := List.length_eq_two.mp hlen2
    rw [hab] at hu
    simp only [List.map_cons, List.map_nil, List.cons.injEq, and_true] at hu
    obtain ⟨ha, hb2⟩ := hu
    have hamem : a ∈ r := List.take_subset 2 r (hab ▸ List.mem_cons_self a _)
    have hbmem : b ∈ r :=
      List.take_subset 2 r (hab ▸ List.mem_cons_of_mem a (List.mem_cons_self b _))
    have ha2 : a = '/' := by
      by_cases h : (a == '/') = true
      · exact eq_of_beq h
      · rw [if_neg h] at ha
        exact absurd ha (hb a hamem)
    have hb3 : b = '/' := by
      by_cases h : (b == '/') = true
      · exact eq_of_beq h
      · rw [if_neg h] at hb2
        exact absurd hb2 (hb b hbmem)
    subst ha2; subst hb3
    have hrr : r = '/' :: '/' :: r.drop 2 := by
      have htd := List.take_append_drop 2 r
      rw [hab] at htd
      simpa using htd.symm
    exact hdd (r.drop 2) hrr
  rw [if_neg hnotunc]
  simp only [Path.mk.injEq, and_true]
  rw [List.map_map]
  have hcg : ∀ c ∈ r, ((fun c => if c == '\\' then '/' else c) ∘
      fun c => if c == '/' then '\\' else c) c = id c := by
    intro c hc
    by_cases h : (c == '/') = true
    · simp [Function.comp, h, eq_of_beq h]
    · have hcb : (c == '\\') = false := by
        simpa using hb c hc
      simp [Function.comp, h, hcb]
  rw [List.map_congr_left hcg, List.map_id]

/-- **C9**: converting a POSIX-format path (constructed from any string) to
Windows format and back yields a structurally equal path. -/
theorem c9_posix_windows_roundtrip (s : List Char) :
    Path.withFormat (Path.withFormat (Path.ofString s .posix) .windows) .posix =
      Path.ofString s .posix := by
  exact convert_roundtrip _ rfl (ofString_posix_no_backslash s)
    (fun t => ofString_posix_no_leading_double s t)

end Path

/-! ## Render-form helper lemmas -/

theorem lastc_cons (y : Char) (X : List Char) (h : X ≠ []) :
    lastc (y :: X) = lastc X := by
  cases X with
  | nil => exact absurd rfl h
  | cons a t => simp [lastc, List.getLast?_cons_cons]

theorem lastc_append (s r : List Char) (h : r ≠ []) :
    lastc (s ++ r) = lastc r := by
  induction s with
  | nil => rfl
  | cons a t ih =>
    rw [List.cons_append, lastc_cons _ _ (by simp [h]), ih]

theorem lastc_mem : ∀ l : List Char, l ≠ [] → lastc l ∈ l
  | [], h => absurd rfl h
  | [a], _ => by simp [lastc]
  | a :: b :: t, _ => by
    rw [lastc_cons _ _ (by simp)]
    exact List.mem_cons_of_mem a (lastc_mem (b :: t) (by simp))

theorem interSep_ne_nil (c : Char) : ∀ segs : List (List Char), segs ≠ [] →
    (∀ s ∈ segs, s ≠ []) → interSep c segs ≠ []
  | [], h, _ => absurd rfl h
  | [s], _, hne => by
    simpa [interSep] using hne s (by simp)
  | s :: t :: rest, _, hne => by
    show s ++ c :: interSep c (t :: rest) ≠ []
    simp

theorem interSep_lastc (c : Char) : ∀ segs : List (List Char), segs ≠ [] →
    (∀ s ∈ segs, s ≠ []) → ∃ s ∈ segs, lastc (interSep c segs) = lastc s
  | [], h, _ => absurd rfl h
  | [s], _, _ => ⟨s, by simp, rfl⟩
  | s :: t :: rest, _, hne => by
    have ih := interSep_lastc c (t :: rest) (by simp)
      (fun x hx => hne x (List.mem_cons_of_mem s hx))
    obtain ⟨x, hx, hlx⟩ := ih
    refine ⟨x, List.mem_cons_of_mem s hx, ?_⟩
    show lastc (s ++ c :: interSep c (t :: rest)) = lastc x
    rw [lastc_append _ _ (by simp),
      lastc_cons _ _ (interSep_ne_nil c (t :: rest) (by simp)
        (fun y hy => hne y (List.mem_cons_of_mem s hy))), hlx]

theorem WfName.ne_nil {n : List Char} (h : WfName n) : n ≠ [] := h.1

theorem WfName.lastc_not_sep {n : List Char} (h : WfName n) :
    lastc n ≠ '/' ∧ lastc n ≠ '\\' := by
  have hm := lastc_mem n h.ne_nil
  exact ⟨(h.2.2 _ hm).1, (h.2.2 _ hm).2.1⟩

theorem WfName.sepFree {n : List Char} (h : WfName n) :
    ∀ c ∈ n, isSep c = false := by
  intro c hc
  have := h.2.2 c hc
  simp [isSep, this.1, this.2.1]

/-- For a non-empty well-formed segment list, the last character of the
separated join is the last character of a segment — never a separator. -/
theorem interSep_lastc_not_sep (c : Char) (segs : List (List Char))
    (hn : segs ≠ []) (hw : ∀ s ∈ segs, WfName s) :
    lastc (interSep c segs) ≠ '/' ∧ lastc (interSep c segs) ≠ '\\' := by
  obtain ⟨s, hs, hls⟩ := interSep_lastc c segs hn (fun s hsm => (hw s hsm).ne_nil)
  rw [hls]
  exact (hw s hs).lastc_not_sep

namespace Path

theorem separator_of_posix (p : Path) (h : path_fmt p.p_fmt = .posix) :
    separator p = '/' := by
  unfold separator
  cases hf : p.p_fmt with
  | native => rfl
  | posix => rfl
  | windows => rw [hf] at h; cases h

theorem isWin_of_posix (p : Path) (h : path_fmt p.p_fmt = .posix) :
    isWin p = false := by
  simp [isWin, h]

theorem stripTrailing_win (pp : List Char) :
    stripTrailing pp '\\' =
      if (decide (pp.length ≤ 2) && nthc pp 0 == '\\' && nthc pp 1 == '\\') = true then pp
      else if (decide (pp.length ≤ 3) && hasLetter pp) = true then pp
      else if lastc pp == '\\' then pp.dropLast else pp := by
  unfold stripTrailing
  rw [if_pos (by decide)]

theorem stripTrailing_posix_keep (pp : List Char) (h : lastc pp ≠ '/') :
    stripTrailing pp '/' = pp := by
  rw [stripTrailing_posix]
  split
  · rfl
  · rw [if_neg (by simp [h])]

theorem stripTrailing_win_keep (pp : List Char) (h : lastc pp ≠ '\\') :
    stripTrailing pp '\\' = pp := by
  rw [stripTrailing_win]
  split
  · rfl
  · split
    · rfl
    · rw [if_neg (by simp [h])]

end Path

/-! ## Claim C7 -/

/-- A normalized absolute raw form survives `strip_trailing` unchanged. -/
theorem stripTrailing_absNormal :
    (∀ segs : List (List Char), (∀ s ∈ segs, WfName s) →
      Path.stripTrailing (renderPosix true segs) '/' = renderPosix true segs) ∧
    (∀ w : WinAbs, WfWinAbs w →
      Path.stripTrailing (renderWinAbs w) '\\' = renderWinAbs w) := by
  constructor
  · intro segs hwf
    cases segs with
    | nil => decide
    | cons s rest =>
      apply Path.stripTrailing_posix_keep
      show lastc (['/'] ++ interSep '/' (s :: rest)) ≠ '/'
      rw [lastc_append _ _ (interSep_ne_nil '/' (s :: rest) (by simp)
        (fun x hx => (hwf x hx).ne_nil))]
      exact (interSep_lastc_not_sep '/' (s :: rest) (by simp) hwf).1
  · intro w hw
    cases w with
    | driveAbs letter segs =>
      obtain ⟨⟨hlo, hhi⟩, hwseg⟩ := hw
      cases segs with
      | nil =>
        show Path.stripTrailing [letter, ':', '\\'] '\\' = [letter, ':', '\\']
        rw [Path.stripTrailing_win]
        split
        · rfl
        · rw [if_pos]
          simp [Path.hasLetter, nthc, hlo, hhi]
      | cons s rest =>
        apply Path.stripTrailing_win_keep
        show lastc ([letter, ':', '\\'] ++ interSep '\\' (s :: rest)) ≠ '\\'
        rw [lastc_append _ _ (interSep_ne_nil '\\' (s :: rest) (by simp)
          (fun x hx => (hwseg x hx).ne_nil))]
        exact (interSep_lastc_not_sep '\\' (s :: rest) (by simp) hwseg).2
    | uncAbs segs =>
      cases segs with
      | nil =>
        show Path.stripTrailing ['\\', '\\'] '\\' = ['\\', '\\']
        rw [Path.stripTrailing_win]
        rw [if_pos (by simp [nthc])]
      | cons s rest =>
        apply Path.stripTrailing_win_keep
        show lastc (['\\', '\\'] ++ interSep '\\' (s :: rest)) ≠ '\\'
        rw [lastc_append _ _ (interSep_ne_nil '\\' (s :: rest) (by simp)
          (fun x hx => (hw x hx).ne_nil))]
        exact (interSep_lastc_not_sep '\\' (s :: rest) (by simp) hw).2

/-- **C10**: `DirectoryStream::open` on an already-open stream, or with an
over-long path, returns `false` without touching the stream state and
without acquiring any OS handle. -/
theorem c10_open_guard (st : Fs.DStream) (pathArg : List Char)
    (osListing : Option (List Fs.Name)) (w : Fs.World)
    (h : st.p_d.isSome = true ∨ pathArg.length > Fs.FILENAME_MAX) :
    Fs.DStream.open st pathArg osListing w = (false, st, w) := by
  unfold Fs.DStream.open
  rw [if_pos]
  rcases h with h | h
  · simp [h]
  · simp [h]

/-! ## Claim C6 -/

namespace Path

theorem findc_eq_nil (c : Char) : ∀ s : List Char, (∀ x ∈ s, x ≠ c) →
    findc c s = []
  | [], _ => rfl
  | x :: xs, h => by
    rw [findc, if_neg (by simpa using h x (by simp))]
    exact findc_eq_nil c xs (fun y hy => h y (List.mem_cons_of_mem x hy))

theorem findc_append_cons (c : Char) : ∀ (u v : List Char), (∀ x ∈ u, x ≠ c) →
    findc c (u ++ c :: v) = c :: v
  | [], v, _ => by simp [findc]
  | x :: u', v, h => by
    rw [List.cons_append, findc, if_neg (by simpa using h x (by simp))]
    exact findc_append_cons c u' v (fun y hy => h y (List.mem_cons_of_mem x hy))

theorem findLast_not_mem (c : Char) : ∀ v : List Char, (∀ x ∈ v, x ≠ c) →
    findLast c v = []
  | [], _ => rfl
  | x :: xs, h => by
    rw [findLast]
    simp only [findLast_not_mem c xs (fun y hy => h y (List.mem_cons_of_mem x hy))]
    rw [if_neg (by simp), if_neg (by simpa using h x (by simp))]

theorem findLast_append_cons (c : Char) : ∀ (u v : List Char),
    (∀ x ∈ v, x ≠ c) → findLast c (u ++ c :: v) = c :: v
  | [], v, h => by
    rw [List.nil_append, findLast]
    simp only [findLast_not_mem c v h]
    rw [if_neg (by simp), if_pos (by simp)]
  | x :: u', v, h => by
    rw [List.cons_append, findLast]
    simp only [findLast_append_cons c u' v h]
    rw [if_pos (by simp)]

theorem interSep_cons (c : Char) (s : List Char) (rest : List (List Char)) :
    interSep c (s :: rest) =
      s ++ (if rest = [] then [] else c :: interSep c rest) := by
  cases rest <;> simp [interSep]

theorem interSep_concat (c : Char) : ∀ (init : List (List Char)) (lst : List Char),
    init ≠ [] → interSep c (init ++ [lst]) = interSep c init ++ c :: lst
  | [], _, h => absurd rfl h
  | [x], lst, _ => by simp [interSep]
  | x :: y :: tl, lst, _ => by
    show x ++ c :: interSep c ((y :: tl) ++ [lst]) = (x ++ c :: interSep c (y :: tl)) ++ c :: lst
    rw [interSep_concat c (y :: tl) lst (by simp)]
    simp

/-- `cleanupLoop` passes a separator-free prefix through unchanged. -/
theorem cleanupLoop_sepFree_append (sep : Char) :
    ∀ (s r : List Char), (∀ c ∈ s, isSep c = false) →
      cleanupLoop sep (s ++ r) = s ++ cleanupLoop sep r
  | [], r, _ => by simp
  | a :: t, r, h => by
    rw [List.cons_append, cleanupLoop_cons, if_neg (by simp [h a (by simp)])]
    rw [cleanupLoop_sepFree_append sep t r (fun c hc => h c (List.mem_cons_of_mem a hc))]
    rfl

/-- `dropRun` leaves a string beginning with a well-formed segment
unchanged. -/
theorem dropRun_wfName_append (t r : List Char) (h : WfName t) :
    dropRun (t ++ r) = t ++ r := by
  obtain ⟨c, t', rfl⟩ : ∃ c t', t = c :: t' := by
    cases t with
    | nil => exact absurd rfl h.1
    | cons c t' => exact ⟨c, t', rfl⟩
  have hns : ¬ isSep c = true := by simp [h.sepFree c (by simp)]
  have hdot : ¬ (c == '.' &&
      (isSep (nthc (t' ++ r) 0) || nthc (t' ++ r) 0 == '\x00')) = true := by
    cases ht' : t' with
    | nil =>
      have hc : c ≠ '.' := by
        intro hcon
        refine absurd ?_ h.2.1
        rw [ht', hcon]
      simp [hc]
    | cons d t'' =>
      have hd := h.2.2 d (by simp [ht'])
      have h0 : nthc ((d :: t'') ++ r) 0 = d := rfl
      rw [h0]
      simp [isSep, hd.1, hd.2.1, hd.2.2]
  rw [List.cons_append, dropRun_cons, if_neg hns, if_neg hdot]

/-- `dropRun` leaves a rendered segment sequence unchanged. -/
theorem dropRun_interSep (segs : List (List Char)) (hne : segs ≠ [])
    (hw : ∀ s ∈ segs, WfName s) :
    dropRun (interSep '/' segs) = interSep '/' segs := by
  obtain ⟨s, rest, rfl⟩ : ∃ s rest, segs = s :: rest := by
    cases segs with
    | nil => exact absurd rfl hne
    | cons s rest => exact ⟨s, rest, rfl⟩
  rw [interSep_cons]
  exact dropRun_wfName_append s _ (hw s (by simp))

/-- `cleanupLoop` fixes a rendered segment sequence. -/
theorem cleanupLoop_interSep : ∀ segs : List (List Char),
    (∀ s ∈ segs, WfName s) → cleanupLoop '/' (interSep '/' segs) = interSep '/' segs
  | [], _ => rfl
  | [s], hw => by
    show cleanupLoop '/' s = s
    have := cleanupLoop_sepFree_append '/' s [] ((hw s (by simp)).sepFree)
    simpa [cleanupLoop_nil] using this
  | s :: t :: rest, hw => by
    show cleanupLoop '/' (s ++ '/' :: interSep '/' (t :: rest)) = _
    rw [cleanupLoop_sepFree_append '/' s _ ((hw s (by simp)).sepFree)]
    rw [cleanupLoop_cons, if_pos (by simp [isSep])]
    rw [dropRun_interSep (t :: rest) (by simp)
      (fun x hx => hw x (List.mem_cons_of_mem s hx))]
    rw [cleanupLoop_interSep (t :: rest)
      (fun x hx => hw x (List.mem_cons_of_mem s hx))]
    rfl

theorem renderPosix_head_abs (segs : List (List Char)) :
    nthc (renderPosix true segs) 0 = '/' := by
  simp [renderPosix, nthc]

theorem renderPosix_head_rel (s : List Char) (rest : List (List Char))
    (hs : s ≠ []) :
    ∃ c t', s = c :: t' ∧ nthc (renderPosix false (s :: rest)) 0 = c := by
  obtain ⟨c, t', rfl⟩ : ∃ c t', s = c :: t' := by
    cases s with
    | nil => exact absurd rfl hs
    | cons c t' => exact ⟨c, t', rfl⟩
  refine ⟨c, t', rfl, ?_⟩
  simp [renderPosix, interSep_cons, nthc]

/-- The `.`-erase prologue of `cleanup_str` does not fire on a rendered
normalized string, so `cleanup_str` fixes it. -/
theorem cleanupStr_render_posix (abs : Bool) (segs : List (List Char))
    (hne : abs = false → segs ≠ []) (hw : ∀ s ∈ segs, WfName s) :
    cleanupStr (renderPosix abs segs) '/' false = renderPosix abs segs := by
  have hdot : (nthc (renderPosix abs segs) 0 == '.' &&
      (isSep (nthc (renderPosix abs segs) 1) ||
        nthc (renderPosix abs segs) 1 == '\x00')) = false := by
    cases abs with
    | true =>
      rw [renderPosix_head_abs]
      simp
    | false =>
      obtain ⟨s, rest, rfl⟩ : ∃ s rest, segs = s :: rest := by
        cases segs with
        | nil => exact absurd rfl (hne rfl)
        | cons s rest => exact ⟨s, rest, rfl⟩
      obtain ⟨c, t', hs, hhead⟩ :=
        renderPosix_head_rel s rest (hw s (by simp)).ne_nil
      rw [hhead]
      by_cases hc : (c == '.') = true
      · have hcdot : c = '.' := eq_of_beq hc
        have ht' : t' ≠ [] := by
          intro hcon
          exact absurd (by rw [hs, hcdot, hcon] : s = ['.']) (hw s (by simp)).2.1
        obtain ⟨d, t'', rfl⟩ : ∃ d t'', t' = d :: t'' := by
          cases t' with
          | nil => exact absurd rfl ht'
          | cons d t'' => exact ⟨d, t'', rfl⟩
        have hd := (hw s (by simp)).2.2 d (by simp [hs])
        have h1 : nthc (renderPosix false (s :: rest)) 1 = d := by
          rw [hs]
          simp [renderPosix, interSep_cons, nthc]
        rw [h1]
        simp [isSep, hd.1, hd.2.1, hd.2.2]
      · simp [hc]
  unfold cleanupStr
  simp only [Bool.false_and, Bool.false_eq_true, if_false, List.take_zero,
    List.drop_zero, List.nil_append, Nat.zero_add]
  rw [hdot]
  simp only [Bool.false_eq_true, if_false]
  cases abs with
  | true =>
    show cleanupLoop '/' ('/' :: interSep '/' segs) = _
    rw [cleanupLoop_cons, if_pos (by simp [isSep])]
    cases hsegs : segs with
    | nil => rfl
    | cons s rest =>
      rw [dropRun_interSep (s :: rest) (by simp) (fun x hx => hw x (hsegs ▸ hx))]
      rw [cleanupLoop_interSep (s :: rest) (fun x hx => hw x (hsegs ▸ hx))]
      rfl
  | false =>
    show cleanupLoop '/' (interSep '/' segs) = renderPosix false segs
    rw [cleanupLoop_interSep segs hw]
    simp [renderPosix]

theorem renderPosix_ne_nil (abs : Bool) (segs : List (List Char))
    (hne : abs = false → segs ≠ []) (hw : ∀ s ∈ segs, WfName s) :
    renderPosix abs segs ≠ [] := by
  cases abs with
  | true => simp [renderPosix]
  | false =>
    obtain ⟨s, rest, rfl⟩ : ∃ s rest, segs = s :: rest := by
      cases segs with
      | nil => exact absurd rfl (hne rfl)
      | cons s rest => exact ⟨s, rest, rfl⟩
    have := interSep_ne_nil '/' (s :: rest) (by simp)
      (fun x hx => (hw x hx).ne_nil)
    simpa [renderPosix] using this

theorem renderPosix_ne_dot (abs : Bool) (segs : List (List Char))
    (hne : abs = false → segs ≠ []) (hw : ∀ s ∈ segs, WfName s) :
    renderPosix abs segs ≠ ['.'] := by
  cases abs with
  | true =>
    show ('/' :: interSep '/' segs) ≠ ['.']
    intro hcon
    have := congrArg (fun l => nthc l 0) hcon
    simp [nthc] at this
  | false =>
    obtain ⟨s, rest, rfl⟩ : ∃ s rest, segs = s :: rest := by
      cases segs with
      | nil => exact absurd rfl (hne rfl)
      | cons s rest => exact ⟨s, rest, rfl⟩
    intro hcon
    have hrel : interSep '/' (s :: rest) = ['.'] := by
      simpa [renderPosix] using hcon
    cases hrest : rest with
    | nil =>
      rw [hrest] at hrel
      exact absurd (by simpa [interSep] using hrel) (hw s (by simp)).2.1
    | cons t tl =>
      rw [hrest] at hrel
      rw [interSep_cons, if_neg (by simp)] at hrel
      obtain ⟨c, s', rfl⟩ : ∃ c s', s = c :: s' := by
        cases hs2 : s with
        | nil => exact absurd hs2 (hw s (by simp)).ne_nil
        | cons c s' => exact ⟨c, s', rfl⟩
      rw [List.cons_append] at hrel
      have := (List.cons.injEq _ _ _ _).mp hrel
      simp at this

theorem stripTrailing_render_posix (abs : Bool) (segs : List (List Char))
    (hne : abs = false → segs ≠ []) (hw : ∀ s ∈ segs, WfName s) :
    stripTrailing (renderPosix abs segs) '/' = renderPosix abs segs := by
  cases abs with
  | true => exact stripTrailing_absNormal.1 segs hw
  | false =>
    obtain ⟨s, rest, rfl⟩ : ∃ s rest, segs = s :: rest := by
      cases segs with
      | nil => exact absurd rfl (hne rfl)
      | cons s rest => exact ⟨s, rest, rfl⟩
    apply stripTrailing_posix_keep
    show lastc (renderPosix false (s :: rest)) ≠ '/'
    have : renderPosix false (s :: rest) = interSep '/' (s :: rest) := by
      simp [renderPosix]
    rw [this]
    exact (interSep_lastc_not_sep '/' (s :: rest) (by simp) hw).1

/-- `ofString` fixes a rendered normalized POSIX raw string. -/
theorem ofString_render_posix (abs : Bool) (segs : List (List Char))
    (fmt : Format) (hfmt : path_fmt fmt = .posix)
    (hne : abs = false → segs ≠ []) (hw : ∀ s ∈ segs, WfName s) :
    ofString (renderPosix abs segs) fmt =
      { p_path := renderPosix abs segs, p_fmt := fmt } := by
  have hsep : separator { p_path := ['.'], p_fmt := fmt } = '/' :=
    separator_of_posix _ hfmt
  have hwin : isWin { p_path := ['.'], p_fmt := fmt } = false :=
    isWin_of_posix _ hfmt
  show appendCore { p_path := ['.'], p_fmt := fmt }
      (if false = true then _ else cleanupStr (renderPosix abs segs)
        (separator { p_path := ['.'], p_fmt := fmt })
        (isWin { p_path := ['.'], p_fmt := fmt })) = _
  rw [if_neg (by simp), hsep, hwin,
    cleanupStr_render_posix abs segs hne hw]
  unfold appendCore
  rw [hsep, hwin]
  simp only [Bool.false_and, Bool.or_false]
  cases abs with
  | true =>
    rw [if_pos (by rw [renderPosix_head_abs]; rfl)]
    rw [stripTrailing_render_posix true segs (by simp) hw]
  | false =>
    obtain ⟨s, rest, rfl⟩ : ∃ s rest, segs = s :: rest := by
      cases segs with
      | nil => exact absurd rfl (hne rfl)
      | cons s rest => exact ⟨s, rest, rfl⟩
    obtain ⟨c, t', hs, hhead⟩ :=
      renderPosix_head_rel s rest (hw s (by simp)).ne_nil
    have hcns : (c == '/') = false := by
      have := (hw s (by simp)).2.2 c (by simp [hs])
      simp [this.1]
    rw [if_neg (by rw [hhead]; simp [hcns])]
    rw [if_pos (renderPosix_ne_nil false (s :: rest) (by simp) hw)]
    rw [if_pos trivial]
    rw [stripTrailing_render_posix false (s :: rest) (by simp) hw]

/-- `ofString` fixes a single well-formed segment. -/
theorem ofString_wfName (nm : List Char) (fmt : Format)
    (hfmt : path_fmt fmt = .posix) (h : WfName nm) :
    ofString nm fmt = { p_path := nm, p_fmt := fmt } := by
  have := ofString_render_posix false [nm] fmt hfmt (by simp)
    (by intro s hs; simp at hs; subst hs; exact h)
  simpa [renderPosix, interSep] using this

theorem anchor_render (abs : Bool) (segs : List (List Char)) (fmt : Format)
    (hfmt : path_fmt fmt = .posix)
    (hne : abs = false → segs ≠ []) (hw : ∀ s ∈ segs, WfName s) :
    anchor { p_path := renderPosix abs segs, p_fmt := fmt } =
      (if abs then ['/'] else []) := by
  have hwin : isWin { p_path := renderPosix abs segs, p_fmt := fmt } = false :=
    isWin_of_posix _ hfmt
  have hdrive : drive { p_path := renderPosix abs segs, p_fmt := fmt } = [] := by
    unfold drive
    rw [hwin]
    rfl
  unfold anchor
  rw [hdrive, if_pos rfl]
  unfold root get_rootp
  rw [hwin]
  simp only [Bool.false_eq_true, if_false]
  cases abs with
  | true =>
    rw [if_pos (by rw [renderPosix_head_abs]; rfl)]
    simp [renderPosix_head_abs]
  | false =>
    obtain ⟨s, rest, rfl⟩ : ∃ s rest, segs = s :: rest := by
      cases segs with
      | nil => exact absurd rfl (hne rfl)
      | cons s rest => exact ⟨s, rest, rfl⟩
    obtain ⟨c, t', hs, hhead⟩ :=
      renderPosix_head_rel s rest (hw s (by simp)).ne_nil
    have hcns : (c == '/') = false := by
      have := (hw s (by simp)).2.2 c (by simp [hs])
      simp [this.1]
    rw [if_neg (by rw [hhead]; simp [hcns])]
    rfl

theorem relative_to_str_eq (p : Path) (other : List Char) :
    relative_to_str p other =
      if other = ['.'] then p.p_path
      else if p.p_path.take other.length = other then
        p.p_path.drop
          (if (decide (other.length < p.p_path.length) &&
              (nthc p.p_path other.length == separator p)) = true
           then other.length + 1 else other.length)
      else [] :=
  rfl

theorem rel_render (abs : Bool) (segs : List (List Char)) (fmt : Format)
    (hfmt : path_fmt fmt = .posix)
    (hne : abs = false → segs ≠ []) (hw : ∀ s ∈ segs, WfName s) :
    relative_to_str { p_path := renderPosix abs segs, p_fmt := fmt }
        (anchor { p_path := renderPosix abs segs, p_fmt := fmt }) =
      interSep '/' segs := by
  rw [anchor_render abs segs fmt hfmt hne hw, relative_to_str_eq]
  have hsep : separator { p_path := renderPosix abs segs, p_fmt := fmt } = '/' :=
    separator_of_posix _ hfmt
  rw [hsep]
  cases abs with
  | true =>
    rw [if_neg (by decide)]
    rw [if_pos (by simp [renderPosix])]
    cases hsegs : segs with
    | nil =>
      rw [if_neg (by dsimp only; decide)]
      dsimp only
      decide
    | cons s rest =>
      obtain ⟨c, t', hs, -⟩ :=
        renderPosix_head_rel s rest (hw s (by simp [hsegs])).ne_nil
      have h1 : nthc (renderPosix true (s :: rest)) 1 = c := by
        rw [hs]
        simp [renderPosix, interSep_cons, nthc]
      have hcns : (c == '/') = false := by
        have := (hw s (by simp [hsegs])).2.2 c (by simp [hs])
        simp [this.1]
      rw [if_neg (by simp [h1, hcns])]
      show List.drop 1 ('/' :: interSep '/' (s :: rest)) = _
      simp
  | false =>
    rw [if_neg (by decide)]
    rw [if_pos (by simp)]
    obtain ⟨s, rest, rfl⟩ : ∃ s rest, segs = s :: rest := by
      cases segs with
      | nil => exact absurd rfl (hne rfl)
      | cons s rest => exact ⟨s, rest, rfl⟩
    obtain ⟨c, t', hs, hhead⟩ :=
      renderPosix_head_rel s rest (hw s (by simp)).ne_nil
    have hcns : (c == '/') = false := by
      have := (hw s (by simp)).2.2 c (by simp [hs])
      simp [this.1]
    rw [if_neg (by simp [hhead, hcns])]
    show List.drop 0 (renderPosix false (s :: rest)) = _
    simp [renderPosix]

end Path

/-! The C6 theorem itself. -/

/-- **C6** (counterexample): `p = "a"` has a name (`"a"`) but no parent
separator; `parent()` returns `p` itself, so joining parent and name gives
`"a/a"`, not `normalize(p) = "a"`. -/
theorem c6_counterexample :
    Path.has_name (Path.ofString ['a'] .posix) = true ∧
    Path.ofString (Path.ofString ['a'] .posix).p_path .posix =
      Path.ofString ['a'] .posix ∧
    Path.join (Path.parent (Path.ofString ['a'] .posix))
        (Path.ofString (Path.name (Path.ofString ['a'] .posix)) .native) ≠
      Path.ofString ['a'] .posix := by
  refine ⟨by decide, by decide, by decide⟩

/-- **C6** (amended): for a normalized POSIX-format path that has a parent
separator (at least two segments), joining `parent(p)` with `name(p)` taken
as a path rebuilds the path's raw string; the result's format resolves like
the original (its tag is `native`, as `parent()` rebuilds through the
string constructor's defaulted format argument). -/
theorem c6_parent_join_name (fmt : Format) (hfmt : Path.path_fmt fmt = .posix)
    (abs : Bool) (init : List (List Char)) (lst : List Char)
    (hinit : init ≠ []) (hw : ∀ s ∈ init ++ [lst], WfName s) :
    Path.has_parent { p_path := renderPosix abs (init ++ [lst]), p_fmt := fmt } = true ∧
    (Path.join
        (Path.parent { p_path := renderPosix abs (init ++ [lst]), p_fmt := fmt })
        (Path.ofString
          (Path.name { p_path := renderPosix abs (init ++ [lst]), p_fmt := fmt })
          .native)).p_path = renderPosix abs (init ++ [lst]) ∧
    Path.path_fmt (Path.join
        (Path.parent { p_path := renderPosix abs (init ++ [lst]), p_fmt := fmt })
        (Path.ofString
          (Path.name { p_path := renderPosix abs (init ++ [lst]), p_fmt := fmt })
          .native)).p_fmt = Path.path_fmt fmt := by
  have hwlst : WfName lst := hw lst (by simp)
  have hwinit : ∀ s ∈ init, WfName s := fun s hs => hw s (by simp [hs])
  have hne : abs = false → init ++ [lst] ≠ [] := fun _ => by simp
  have hrel := Path.rel_render abs (init ++ [lst]) fmt hfmt hne hw
  have hsepP : Path.separator { p_path := renderPosix abs (init ++ [lst]), p_fmt := fmt } = '/' :=
    Path.separator_of_posix _ hfmt
  have hinter : interSep '/' (init ++ [lst]) = interSep '/' init ++ '/' :: lst :=
    Path.interSep_concat '/' init lst hinit
  -- the relative part contains a separator: has_parent
  obtain ⟨i0, init', rfl⟩ : ∃ i0 init', init = i0 :: init' := by
    cases init with
    | nil => exact absurd rfl hinit
    | cons i0 init' => exact ⟨i0, init', rfl⟩
  have hdecomp : interSep '/' ((i0 :: init') ++ [lst]) =
      i0 ++ '/' :: interSep '/' (init' ++ [lst]) := by
    show interSep '/' (i0 :: (init' ++ [lst])) = _
    rw [Path.interSep_cons]
    rw [if_neg (by simp)]
  have hhp : Path.has_parent
      (⟨renderPosix abs ((i0 :: init') ++ [lst]), fmt⟩ : Path) = true := by
    unfold Path.has_parent
    rw [hrel, hsepP, hdecomp]
    rw [Path.findc_append_cons '/' i0 _
      (fun x hx => ((hwinit i0 (by simp)).2.2 x hx).1)]
    simp
  refine ⟨hhp, ?_, ?_⟩
  · -- the main reconstruction
    have hlast : Path.findLast '/' (interSep '/' ((i0 :: init') ++ [lst])) =
        '/' :: lst := by
      rw [hinter]
      exact Path.findLast_append_cons '/' _ lst
        (fun x hx => (hwlst.2.2 x hx).1)
    have hname : Path.name
        (⟨renderPosix abs ((i0 :: init') ++ [lst]), fmt⟩ : Path) = lst := by
      unfold Path.name
      rw [hrel, hsepP]
      simp only [hlast]
    have hraweq : renderPosix abs ((i0 :: init') ++ [lst]) =
        renderPosix abs (i0 :: init') ++ '/' :: lst := by
      unfold renderPosix
      rw [hinter]
      simp
    have hparent : Path.parent
        (⟨renderPosix abs ((i0 :: init') ++ [lst]), fmt⟩ : Path) =
        (⟨renderPosix abs (i0 :: init'), .native⟩ : Path) := by
      unfold Path.parent
      rw [hrel, hsepP, hlast]
      rw [if_neg (by simp)]
      have htake : (renderPosix abs ((i0 :: init') ++ [lst])).take
          ((renderPosix abs ((i0 :: init') ++ [lst])).length - ('/' :: lst).length) =
          renderPosix abs (i0 :: init') := by
        rw [hraweq]
        simp only [List.length_append, List.length_cons]
        rw [show (renderPosix abs (i0 :: init')).length + (lst.length + 1) -
          (lst.length + 1) = (renderPosix abs (i0 :: init')).length from by omega]
        exact List.take_left' rfl
      rw [htake]
      exact Path.ofString_render_posix abs (i0 :: init') .native rfl
        (fun _ => by simp) hwinit
    rw [hname, hparent]
    rw [Path.ofString_wfName lst .native rfl hwlst]
    show (Path.append_str { p_path := renderPosix abs (i0 :: init'), p_fmt := .native }
      lst _).p_path = _
    unfold Path.append_str
    rw [if_pos (by rfl)]
    unfold Path.appendCore
    have hsepN : Path.separator
        (⟨renderPosix abs (i0 :: init'), Format.native⟩ : Path) = '/' := rfl
    have hwinN : Path.isWin
        (⟨renderPosix abs (i0 :: init'), Format.native⟩ : Path) = false := rfl
    rw [hsepN, hwinN]
    obtain ⟨cl, tl', hls, -⟩ : ∃ c t', lst = c :: t' ∧ True := by
      cases hl : lst with
      | nil => exact absurd hl hwlst.ne_nil
      | cons c t' => exact ⟨c, t', rfl, trivial⟩
    have hclns : (cl == '/') = false := by
      have := hwlst.2.2 cl (by simp [hls])
      simp [this.1]
    rw [if_neg (by rw [hls]; simp [nthc, hclns])]
    rw [if_pos (by simp [hwlst.ne_nil])]
    rw [if_neg (by simp [Path.renderPosix_ne_dot abs (i0 :: init') (fun _ => by simp) hwinit])]
    rw [if_pos]
    · show Path.stripTrailing (renderPosix abs (i0 :: init') ++ ['/'] ++ lst) '/' = _
      have : renderPosix abs (i0 :: init') ++ ['/'] ++ lst =
          renderPosix abs ((i0 :: init') ++ [lst]) := by
        rw [hraweq]
        simp
      rw [this]
      rw [Path.stripTrailing_render_posix abs ((i0 :: init') ++ [lst])
        (fun _ => by simp) hw]
    · -- last char of the parent render is not the separator
      intro hcon
      have hlnotsep : lastc (renderPosix abs (i0 :: init')) ≠ '/' := by
        cases habs : abs with
        | true =>
          cases hi' : init' with
          | nil =>
            show lastc (renderPosix true [i0]) ≠ '/'
            have : renderPosix true [i0] = ['/'] ++ i0 := by
              simp [renderPosix, interSep]
            rw [this, lastc_append _ _ (hwinit i0 (by simp)).ne_nil]
            exact ((hwinit i0 (by simp)).lastc_not_sep).1
          | cons j jt =>
            show lastc (renderPosix true (i0 :: j :: jt)) ≠ '/'
            have : renderPosix true (i0 :: j :: jt) =
                ['/'] ++ interSep '/' (i0 :: j :: jt) := by
              simp [renderPosix]
            rw [this, lastc_append _ _ (interSep_ne_nil '/' _ (by simp)
              (fun x hx => (hwinit x (hi' ▸ hx)).ne_nil))]
            exact (interSep_lastc_not_sep '/' _ (by simp)
              (fun x hx => hwinit x (hi' ▸ hx))).1
        | false =>
          show lastc (renderPosix false (i0 :: init')) ≠ '/'
          have : renderPosix false (i0 :: init') = interSep '/' (i0 :: init') := by
            simp [renderPosix]
          rw [this]
          exact (interSep_lastc_not_sep '/' _ (by simp) hwinit).1
      exact hlnotsep (by simpa using hcon)
  · -- format resolution
    have hjf : (Path.join
        (Path.parent (⟨renderPosix abs ((i0 :: init') ++ [lst]), fmt⟩ : Path))
        (Path.ofString
          (Path.name (⟨renderPosix abs ((i0 :: init') ++ [lst]), fmt⟩ : Path))
          .native)).p_fmt =
        (Path.parent (⟨renderPosix abs ((i0 :: init') ++ [lst]), fmt⟩ : Path)).p_fmt := rfl
    rw [hjf]
    have hparfmt :
        (Path.parent (⟨renderPosix abs ((i0 :: init') ++ [lst]), fmt⟩ : Path)).p_fmt =
          Format.native ∨
        (Path.parent (⟨renderPosix abs ((i0 :: init') ++ [lst]), fmt⟩ : Path)).p_fmt =
          fmt := by
      simp only [Path.parent]
      split
      · right; rfl
      · left; rfl
    rcases hparfmt with h | h
    · rw [h, hfmt]; rfl
    · rw [h]

/-- Witness for `c6_parent_join_name` at `p = "a/b"`. -/
theorem c6_witness :
    Path.path_fmt .posix = .posix ∧
    (Path.join
        (Path.parent { p_path := renderPosix false ([['a']] ++ [['b']]), p_fmt := .posix })
        (Path.ofString
          (Path.name { p_path := renderPosix false ([['a']] ++ [['b']]), p_fmt := .posix })
          .native)).p_path = renderPosix false ([['a']] ++ [['b']]) :=
  ⟨rfl, (c6_parent_join_name .posix rfl false [['a']] ['b'] (by decide)
    (by decide)).2.1⟩

/-! ## Claims C2 and C3 — single-level directory enumeration -/

namespace Fs

/-- Characterization of the sentinel-skipping read of
`DirectoryStream::pop_front`: success and the entry read are determined by
the non-sentinel residue of the stream, and the handle survives. -/
theorem dsReadSkip_spec (i : Nat) : ∀ l : List Name,
    (dsReadSkip i l).1 = !((l.filter (fun n => !isSentinel n)).isEmpty) ∧
    (dsReadSkip i l).2.1 = (l.filter (fun n => !isSentinel n)).head? ∧
    ∃ rest, (dsReadSkip i l).2.2 = some ⟨i, rest⟩
  | [] => by simp [dsReadSkip]
  | nm :: rest => by
    by_cases hs : isSentinel nm = true
    · rw [dsReadSkip, if_pos hs]
      have ih := dsReadSkip_spec i rest
      simpa [List.filter_cons, hs] using ih
    · rw [dsReadSkip, if_neg hs]
      simp [List.filter_cons, hs]

/-- Characterization of `dir_read_next`: the new current entry is the first
non-sentinel name appended to the base. -/
theorem dirReadNext_fst (base : Path) : ∀ l : List Name,
    (dirReadNext base l).1 =
      ((l.filter (fun n => !isSentinel n)).head?).map
        (fun nm => Path.append base (Path.ofString nm .native))
  | [] => by simp [dirReadNext]
  | nm :: rest => by
    by_cases hs : isSentinel nm = true
    · rw [dirReadNext, if_pos hs]
      have ih := dirReadNext_fst base rest
      simpa [List.filter_cons, hs] using ih
    · rw [dirReadNext, if_neg hs]
      simp [List.filter_cons, hs]

/-- **C2** (counterexample): opening a `DirectoryStream` on an existing,
readable but *empty* directory (the OS hands back a handle whose stream
holds only the `.` and `..` sentinels) returns `false` and leaves the
stream closed — the claim says such an open succeeds in the exhausted
state, failing only when the handle cannot be acquired. -/
theorem c2_counterexample :
    DStream.open ⟨none, none, []⟩ ['d'] (some [dot, dotdot]) ⟨0, []⟩ =
      (false, ⟨none, none, []⟩, ⟨1, []⟩) := by
  decide

/-- **C2** (amended): with a fresh stream and an acquirable handle,
`DirectoryStream::open` succeeds *iff* the directory has at least one
non-sentinel entry — an empty directory makes it close the handle and
report `false` (no handle stays open either way); `dir_range_impl::open`
reaches the exhausted state on an empty directory, but reports an
unacquirable handle by `abort()`, not by a structured error. -/
theorem c2_open_amended (st : DStream) (pathArg : List Char) (l : List Name)
    (w : World) (hclosed : st.p_d = none)
    (hlen : pathArg.length ≤ FILENAME_MAX) :
    ((DStream.open st pathArg (some l) w).1 = true ↔
      l.filter (fun n => !isSentinel n) ≠ []) ∧
    ((DStream.open st pathArg (some l) w).1 = true →
      (DStream.open st pathArg (some l) w).2.1.p_d.isSome = true ∧
      (DStream.open st pathArg (some l) w).2.1.p_de =
        (l.filter (fun n => !isSentinel n)).head? ∧
      (DStream.open st pathArg (some l) w).2.1.p_path = pathArg ∧
      (DStream.open st pathArg (some l) w).2.2.openIds = w.nextId :: w.openIds) ∧
    ((DStream.open st pathArg (some l) w).1 = false →
      (DStream.open st pathArg (some l) w).2.1.p_d = none ∧
      (DStream.open st pathArg (some l) w).2.1.p_de = none ∧
      (DStream.open st pathArg (some l) w).2.2.openIds = w.openIds) ∧
    (∀ p : Path, dirRangeOpen p (some l) = .ok
        ⟨p, (dirReadNext p l).2,
          ((l.filter (fun n => !isSentinel n)).head?).map
            (fun nm => Path.append p (Path.ofString nm .native))⟩) ∧
    (∀ p : Path, dirRangeOpen p none = .aborted) := by
  obtain ⟨hfst, hsnd, ⟨rest0, hhdl⟩⟩ := dsReadSkip_spec w.nextId l
  have hguard : ¬ (st.p_d.isSome || decide (pathArg.length > FILENAME_MAX)) = true := by
    simp [hclosed, Nat.not_lt.mpr hlen]
  have hopen_false : (dsReadSkip w.nextId l).1 = false →
      DStream.open st pathArg (some l) w =
        (false, { p_d := none, p_de := none, p_path := st.p_path },
          { nextId := w.nextId + 1, openIds := w.openIds }) := by
    intro hff
    unfold DStream.open
    rw [if_neg hguard]
    simp only [World.alloc, dsPopFront, DStream.close]
    rw [if_pos (by simp [hff])]
    simp [hhdl, hff, World.closeH, List.erase_cons_head]
  have hopen_true : (dsReadSkip w.nextId l).1 = true →
      DStream.open st pathArg (some l) w =
        (true, { p_d := (dsReadSkip w.nextId l).2.2,
                 p_de := (dsReadSkip w.nextId l).2.1, p_path := pathArg },
          { nextId := w.nextId + 1, openIds := w.nextId :: w.openIds }) := by
    intro htt
    unfold DStream.open
    rw [if_neg hguard]
    simp only [World.alloc, dsPopFront, DStream.close]
    rw [if_neg (by simp [htt])]
    try simp [htt]
  have hfst_iff : (dsReadSkip w.nextId l).1 = true ↔
      l.filter (fun n => !isSentinel n) ≠ [] := by
    rw [hfst]
    constructor
    · intro h1 hnil
      rw [hnil] at h1
      simp at h1
    · intro hne
      cases hE : (l.filter (fun n => !isSentinel n)).isEmpty
      · simp
      · exact absurd (List.isEmpty_iff.mp hE) hne
  refine ⟨?_, ?_, ?_, ?_, ?_⟩
  · cases hc : (dsReadSkip w.nextId l).1
    · rw [hopen_false hc]
      constructor
      · intro hcontra
        exact absurd hcontra (by simp)
      · intro hne
        exact absurd (hfst_iff.mpr hne) (by simp [hc])
    · rw [hopen_true hc]
      constructor
      · intro _
        exact hfst_iff.mp hc
      · intro _
        rfl
  · intro htrue
    have hc : (dsReadSkip w.nextId l).1 = true := by
      cases hc2 : (dsReadSkip w.nextId l).1
      · rw [hopen_false hc2] at htrue; cases htrue
      · rfl
    rw [hopen_true hc]
    exact ⟨by simp [hhdl], by simp [hsnd], rfl, rfl⟩
  · intro hfalse
    have hc : (dsReadSkip w.nextId l).1 = false := by
      cases hc2 : (dsReadSkip w.nextId l).1
      · rfl
      · rw [hopen_true hc2] at hfalse; cases hfalse
    rw [hopen_false hc]
    exact ⟨rfl, rfl, rfl⟩
  · intro p
    unfold dirRangeOpen
    rw [← dirReadNext_fst p l]
  · intro p
    rfl

/-- Witness for `c2_open_amended`: a directory with one real entry. -/
theorem c2_witness :
    ((⟨none, none, []⟩ : DStream).p_d = none ∧
      (['d'] : List Char).length ≤ FILENAME_MAX) ∧
    ((DStream.open ⟨none, none, []⟩ ['d'] (some [dot, ['a'], dotdot]) ⟨0, []⟩).1 = true ↔
      ([dot, ['a'], dotdot].filter (fun n => !isSentinel n)) ≠ []) :=
  ⟨⟨rfl, by decide⟩,
    (c2_open_amended ⟨none, none, []⟩ ['d'] [dot, ['a'], dotdot] ⟨0, []⟩ rfl
      (by decide)).1⟩

/-- The yields of a single-level cursor are exactly the non-sentinel
residue of the OS stream, each appended to the base path. -/
theorem dirYieldsAux_eq (base : Path) : ∀ (l : List Name) (fuel : Nat),
    l.length ≤ fuel →
    dirYieldsAux base fuel l =
      (l.filter (fun n => !isSentinel n)).map
        (fun nm => Path.append base (Path.ofString nm .native))
  | [], fuel, _ => by cases fuel <;> rfl
  | nm :: rest, 0, h => absurd h (by simp)
  | nm :: rest, fuel + 1, h => by
    by_cases hs : isSentinel nm = true
    · have hstep : dirYieldsAux base (fuel + 1) (nm :: rest) =
          dirYieldsAux base (fuel + 1) rest := by
        show (match dirReadNext base (nm :: rest) with
              | (none, _) => []
              | (some p, r) => p :: dirYieldsAux base fuel r) = _
        rw [dirReadNext, if_pos hs]
        rfl
      rw [hstep, dirYieldsAux_eq base rest (fuel + 1)
        (by simp only [List.length_cons] at h; omega)]
      simp [List.filter_cons, hs]
    · have hstep : dirYieldsAux base (fuel + 1) (nm :: rest) =
          Path.append base (Path.ofString nm .native) :: dirYieldsAux base fuel rest := by
        show (match dirReadNext base (nm :: rest) with
              | (none, _) => []
              | (some p, r) => p :: dirYieldsAux base fuel r) = _
        rw [dirReadNext, if_neg hs]
      rw [hstep, dirYieldsAux_eq base rest fuel
        (by simp only [List.length_cons] at h; omega)]
      simp [List.filter_cons, hs]

theorem dirYields_eq (base : Path) (l : List Name) :
    dirYields base l =
      (l.filter (fun n => !isSentinel n)).map
        (fun nm => Path.append base (Path.ofString nm .native)) :=
  dirYieldsAux_eq base l l.length (Nat.le_refl _)

/-- **C3**: a single-level cursor over a directory whose non-sentinel
entries are a permutation of `{a, b, c}` yields exactly those three joined
to the base, each once, in stream order; it never yields a sentinel; and
once exhausted, a further `read_next` is a no-op. -/
theorem c3_enumeration_complete (a b c : Name) (l : List Name) (base : Path)
    (hperm : (l.filter (fun n => !isSentinel n)).Perm [a, b, c]) :
    (dirYields base l).Perm
        ([a, b, c].map (fun nm => Path.append base (Path.ofString nm .native))) ∧
    (∀ q ∈ dirYields base l, ∃ nm ∈ l, isSentinel nm = false ∧
        q = Path.append base (Path.ofString nm .native)) ∧
    dirRangeReadNext ⟨base, [], none⟩ = ⟨base, [], none⟩ := by
  refine ⟨?_, ?_, rfl⟩
  · rw [dirYields_eq]
    exact hperm.map _
  · intro q hq
    rw [dirYields_eq] at hq
    obtain ⟨nm, hnm, rfl⟩ := List.mem_map.mp hq
    have := List.mem_filter.mp hnm
    exact ⟨nm, this.1, by simpa using this.2, rfl⟩

/-- Witness for `c3_enumeration_complete`: sentinels interleaved among
three real entries. -/
theorem c3_witness :
    (([dot, ['a'], ['.', '.'], ['b'], ['c']].filter
        (fun n => !isSentinel n)).Perm [['a'], ['b'], ['c']]) ∧
    (dirYields (Path.ofString ['d'] .native)
        [dot, ['a'], ['.', '.'], ['b'], ['c']]).Perm
      ([['a'], ['b'], ['c']].map
        (fun nm => Path.append (Path.ofString ['d'] .native) (Path.ofString nm .native))) :=
  ⟨by decide,
    (c3_enumeration_complete ['a'] ['b'] ['c'] [dot, ['a'], ['.', '.'], ['b'], ['c']]
      (Path.ofString ['d'] .native) (by decide)).1⟩

end Fs

/-! ## Claim C4 — recursive-cursor handle accounting

Path surgery on rendered normalized strings: appending a well-formed name
and removing the last name are inverse segment operations. -/

namespace Path

theorem interSep_append (c : Char) : ∀ (l₁ l₂ : List (List Char)), l₁ ≠ [] → l₂ ≠ [] →
    interSep c (l₁ ++ l₂) = interSep c l₁ ++ c :: interSep c l₂
  | [], _, h, _ => absurd rfl h
  | [x], l₂, _, h₂ => by
    obtain ⟨y, t, rfl⟩ : ∃ y t, l₂ = y :: t := by
      cases l₂ with
      | nil => exact absurd rfl h₂
      | cons y t => exact ⟨y, t, rfl⟩
    rfl
  | x :: y :: tl, l₂, _, h₂ => by
    show x ++ c :: interSep c ((y :: tl) ++ l₂) =
      (x ++ c :: interSep c (y :: tl)) ++ c :: interSep c l₂
    rw [interSep_append c (y :: tl) l₂ (by simp) h₂]
    simp

theorem renderPosix_append (abs : Bool) (l₁ l₂ : List (List Char))
    (h₁ : l₁ ≠ []) (h₂ : l₂ ≠ []) :
    renderPosix abs (l₁ ++ l₂) = renderPosix abs l₁ ++ '/' :: interSep '/' l₂ := by
  unfold renderPosix
  rw [interSep_append '/' l₁ l₂ h₁ h₂, List.append_assoc]

theorem renderPosix_lastc_ne_sep (abs : Bool) (segs : List (List Char))
    (hne : segs ≠ []) (hw : ∀ s ∈ segs, WfName s) :
    lastc (renderPosix abs segs) ≠ '/' := by
  obtain ⟨s, rest, rfl⟩ : ∃ s rest, segs = s :: rest := by
    cases segs with
    | nil => exact absurd rfl hne
    | cons s rest => exact ⟨s, rest, rfl⟩
  show lastc ((if abs then ['/'] else []) ++ interSep '/' (s :: rest)) ≠ '/'
  rw [lastc_append _ _ (interSep_ne_nil '/' (s :: rest) (by simp)
    (fun x hx => (hw x hx).ne_nil))]
  exact (interSep_lastc_not_sep '/' (s :: rest) (by simp) hw).1

/-- `path::name()` on a rendered normalized string is its last segment. -/
theorem name_render (abs : Bool) (init : List (List Char)) (lst : List Char)
    (fmt : Format) (hfmt : path_fmt fmt = .posix) (hinit : init ≠ [])
    (hw : ∀ s ∈ init ++ [lst], WfName s) :
    name (⟨renderPosix abs (init ++ [lst]), fmt⟩ : Path) = lst := by
  have hne : abs = false → init ++ [lst] ≠ [] := fun _ => by simp
  have hrel := rel_render abs (init ++ [lst]) fmt hfmt hne hw
  have hsepP : separator (⟨renderPosix abs (init ++ [lst]), fmt⟩ : Path) = '/' :=
    separator_of_posix _ hfmt
  have hlast : findLast '/' (interSep '/' (init ++ [lst])) = '/' :: lst := by
    rw [interSep_concat '/' init lst hinit]
    exact findLast_append_cons '/' _ lst
      (fun x hx => ((hw lst (by simp)).2.2 x hx).1)
  unfold name
  rw [hrel, hsepP]
  simp only [hlast]

/-- `path::append` of a well-formed name onto a rendered normalized path
appends one segment. -/
theorem append_render_posix (abs : Bool) (segs : List (List Char)) (nm : List Char)
    (fmt fmt2 : Format) (hfmt : path_fmt fmt = .posix) (hfmt2 : path_fmt fmt2 = .posix)
    (hne : segs ≠ []) (hw : ∀ s ∈ segs, WfName s) (hnm : WfName nm) :
    Path.append (⟨renderPosix abs segs, fmt⟩ : Path) (⟨nm, fmt2⟩ : Path) =
      (⟨renderPosix abs (segs ++ [nm]), fmt⟩ : Path) := by
  have hwall : ∀ s ∈ segs ++ [nm], WfName s := by
    intro s hs
    rcases List.mem_append.mp hs with h | h
    · exact hw s h
    · simp at h; subst h; exact hnm
  unfold Path.append
  rw [show (path_fmt (⟨nm, fmt2⟩ : Path).p_fmt == path_fmt
      (⟨renderPosix abs segs, fmt⟩ : Path).p_fmt) = true from by
    show (path_fmt fmt2 == path_fmt fmt) = true
    rw [hfmt, hfmt2]
    decide]
  unfold Path.append_str
  rw [if_pos rfl]
  unfold Path.appendCore
  have hsepN : separator (⟨renderPosix abs segs, fmt⟩ : Path) = '/' :=
    separator_of_posix _ hfmt
  have hwinN : isWin (⟨renderPosix abs segs, fmt⟩ : Path) = false :=
    isWin_of_posix _ hfmt
  rw [hsepN, hwinN]
  obtain ⟨cl, tl', hls⟩ : ∃ c t', nm = c :: t' := by
    cases hl : nm with
    | nil => exact absurd hl hnm.ne_nil
    | cons c t' => exact ⟨c, t', rfl⟩
  have hclns : (cl == '/') = false := by
    have := hnm.2.2 cl (by simp [hls])
    simp [this.1]
  rw [if_neg (by rw [hls]; simp [nthc, hclns])]
  rw [if_pos (by simp [hnm.ne_nil])]
  rw [if_neg (by simp [renderPosix_ne_dot abs segs (fun _ => hne) hw])]
  rw [if_pos ?notsep]
  case notsep =>
    intro hcon
    exact renderPosix_lastc_ne_sep abs segs hne hw (by simpa using hcon)
  have hre : renderPosix abs segs ++ ['/'] ++ nm = renderPosix abs (segs ++ [nm]) := by
    rw [renderPosix_append abs segs [nm] hne (by simp)]
    simp [interSep]
  rw [hre, stripTrailing_render_posix abs (segs ++ [nm]) (fun _ => by simp) hwall]

/-- `path::remove_name()` on a rendered normalized multi-segment path drops
the last segment. -/
theorem remove_name_render_posix (abs : Bool) (segs : List (List Char))
    (lst : List Char) (fmt : Format) (hfmt : path_fmt fmt = .posix)
    (hne : segs ≠ []) (hw : ∀ s ∈ segs ++ [lst], WfName s) :
    remove_name (⟨renderPosix abs (segs ++ [lst]), fmt⟩ : Path) =
      (⟨renderPosix abs segs, fmt⟩ : Path) := by
  have hname := name_render abs segs lst fmt hfmt hne hw
  have hwl : WfName lst := hw lst (by simp)
  have hre : renderPosix abs (segs ++ [lst]) = renderPosix abs segs ++ '/' :: lst := by
    rw [renderPosix_append abs segs [lst] hne (by simp)]
    rfl
  have hrne : renderPosix abs segs ≠ [] :=
    renderPosix_ne_nil abs segs (fun _ => hne) (fun s hs => hw s (by simp [hs]))
  have hrpos : 0 < (renderPosix abs segs).length := List.length_pos.mpr hrne
  have hlen : (renderPosix abs (segs ++ [lst])).length =
      (renderPosix abs segs).length + 1 + lst.length := by
    rw [hre]
    simp
    omega
  simp only [Path.remove_name]
  rw [hname]
  rw [if_neg hwl.ne_nil]
  rw [if_neg (by rw [hlen]; omega)]
  have herase : eraseSub (renderPosix abs (segs ++ [lst]))
      ((renderPosix abs (segs ++ [lst])).length - lst.length - 1) (lst.length + 1) =
      renderPosix abs segs := by
    unfold eraseSub
    rw [hlen]
    rw [show (renderPosix abs segs).length + 1 + lst.length - lst.length - 1 =
      (renderPosix abs segs).length from by omega]
    rw [hre]
    rw [List.take_left' rfl]
    rw [show (renderPosix abs segs).length + (lst.length + 1) =
      (renderPosix abs segs ++ '/' :: lst).length from by simp]
    rw [List.drop_length, List.append_nil]
  rw [herase]

end Path

namespace Fs

/-! Parsing rendered raw strings back into segment chains (`relOf` inverts
the rendering used by the cursor's `append` calls). -/

theorem splitSegs_sepFree : ∀ s : List Char, s ≠ [] → (∀ c ∈ s, c ≠ '/') →
    splitSegs '/' s = [s]
  | [], h, _ => absurd rfl h
  | [x], _, h => by
    rw [splitSegs, if_neg (by simpa using h x (by simp))]
    rfl
  | x :: y :: t, _, h => by
    rw [splitSegs, if_neg (by simpa using h x (by simp))]
    rw [splitSegs_sepFree (y :: t) (by simp) (fun c hc => h c (List.mem_cons_of_mem x hc))]

theorem splitSegs_append_sepFree (t : List Char) : ∀ s : List Char, (∀ c ∈ s, c ≠ '/') →
    splitSegs '/' (s ++ '/' :: t) = s :: splitSegs '/' t
  | [], _ => by
    show splitSegs '/' ('/' :: t) = [] :: splitSegs '/' t
    rw [splitSegs, if_pos (by simp)]
  | x :: s', h => by
    rw [List.cons_append, splitSegs, if_neg (by simpa using h x (by simp))]
    rw [splitSegs_append_sepFree t s' (fun c hc => h c (List.mem_cons_of_mem x hc))]

theorem splitSegs_interSep : ∀ r : List (List Char), r ≠ [] → (∀ s ∈ r, WfName s) →
    splitSegs '/' (interSep '/' r) = r
  | [], h, _ => absurd rfl h
  | [s], _, hw => by
    show splitSegs '/' (interSep '/' [s]) = [s]
    exact splitSegs_sepFree s (hw s (by simp)).ne_nil
      (fun c hc => ((hw s (by simp)).2.2 c hc).1)
  | s :: y :: tl, _, hw => by
    show splitSegs '/' (s ++ '/' :: interSep '/' (y :: tl)) = s :: (y :: tl)
    rw [splitSegs_append_sepFree _ s (fun c hc => ((hw s (by simp)).2.2 c hc).1)]
    rw [splitSegs_interSep (y :: tl) (by simp)
      (fun x hx => hw x (List.mem_cons_of_mem s hx))]

theorem relOf_self (b : List Char) : relOf b b = some [] := by
  unfold relOf
  rw [if_pos rfl]

theorem relOf_slash (b t : List Char) :
    relOf b (b ++ '/' :: t) = some (splitSegs '/' t) := by
  have hsplit : b ++ '/' :: t = (b ++ ['/']) ++ t := by simp
  unfold relOf
  rw [if_neg (by
    intro hcon
    have := congrArg List.length hcon
    simp at this)]
  rw [if_pos (by
    rw [hsplit, List.isPrefixOf_iff_prefix]
    exact (b ++ ['/']).prefix_append t)]
  rw [hsplit, List.drop_left' (by simp)]

theorem relOf_nil (b : List Char) (hb : b ≠ []) : relOf b [] = none := by
  unfold relOf
  rw [if_neg (fun hcon => hb hcon.symm)]
  rw [if_neg (by simp [List.isPrefixOf_iff_prefix])]

theorem fsQuery_render_self (root : FsNode) (b : List Char) :
    fsQuery root b b = some root := by
  unfold fsQuery
  rw [relOf_self]
  cases root <;> rfl

theorem fsQuery_nil (root : FsNode) (b : List Char) (hb : b ≠ []) :
    fsQuery root b [] = none := by
  unfold fsQuery
  rw [relOf_nil b hb]
  rfl

theorem fsQuery_render (root : FsNode) (abs : Bool) (bsegs : List (List Char))
    (r : List Name) (hb : bsegs ≠ []) (hr : r ≠ [])
    (hwr : ∀ s ∈ r, WfName s) :
    fsQuery root (renderPosix abs bsegs) (renderPosix abs (bsegs ++ r)) =
      lookupTree root r := by
  unfold fsQuery
  rw [Path.renderPosix_append abs bsegs r hb hr]
  rw [relOf_slash]
  rw [splitSegs_interSep r hr hwr]
  rfl

/-! Well-formedness and depth of tree nodes reached by lookup. -/

theorem childOf_wfB (nm : Name) : ∀ (ch : List (Name × FsNode)) (t : FsNode),
    childrenWfB ch = true → childOf ch nm = some t → t.wfB = true
  | [], t, _, h => by simp [childOf] at h
  | (n, c) :: cs, t, hwf, h => by
    rw [childOf] at h
    rw [childrenWfB] at hwf
    simp only [Bool.and_eq_true] at hwf
    by_cases hn : n = nm
    · rw [if_pos hn] at h
      injection h with h
      subst h
      exact hwf.1.2
    · rw [if_neg hn] at h
      exact childOf_wfB nm cs t hwf.2 h

theorem childrenWfB_name (nm : Name) : ∀ ch : List (Name × FsNode),
    childrenWfB ch = true → nm ∈ ch.map Prod.fst → WfName nm
  | [], _, h => by simp at h
  | (n, c) :: cs, hwf, h => by
    rw [childrenWfB] at hwf
    simp only [Bool.and_eq_true] at hwf
    rw [List.map_cons, List.mem_cons] at h
    rcases h with h | h
    · rw [h]
      exact of_decide_eq_true hwf.1.1.1
    · exact childrenWfB_name nm cs hwf.2 h

theorem lookupTree_wfB : ∀ (r : List Name) (root t : FsNode), root.wfB = true →
    lookupTree root r = some t → t.wfB = true
  | [], root, t, hw, h => by
    rw [lookupTree] at h
    injection h with h
    subst h
    exact hw
  | nm :: r', root, t, hw, h => by
    cases root with
    | file => rw [lookupTree] at h; cases h
    | dir ch =>
      rw [lookupTree] at h
      cases hc : childOf ch nm with
      | none => rw [hc] at h; cases h
      | some c =>
        rw [hc] at h
        exact lookupTree_wfB r' c t (childOf_wfB nm ch c hw hc) h

theorem childOf_depth (nm : Name) : ∀ (ch : List (Name × FsNode)) (t : FsNode),
    childOf ch nm = some t → t.depth ≤ childrenDepth ch
  | [], t, h => by simp [childOf] at h
  | (n, c) :: cs, t, h => by
    rw [childOf] at h
    by_cases hn : n = nm
    · rw [if_pos hn] at h
      injection h with h
      subst h
      exact le_max_left _ _
    · rw [if_neg hn] at h
      exact Nat.le_trans (childOf_depth nm cs t h) (le_max_right _ _)

theorem lookupTree_depth : ∀ (r : List Name) (root t : FsNode),
    lookupTree root r = some t → t.depth + r.length ≤ root.depth
  | [], root, t, h => by
    rw [lookupTree] at h
    injection h with h
    subst h
    simp
  | nm :: r', root, t, h => by
    cases root with
    | file => rw [lookupTree] at h; cases h
    | dir ch =>
      rw [lookupTree] at h
      cases hc : childOf ch nm with
      | none => rw [hc] at h; cases h
      | some c =>
        rw [hc] at h
        have h1 := lookupTree_depth r' c t h
        have h2 := childOf_depth nm ch c hc
        show t.depth + (r'.length + 1) ≤ 1 + childrenDepth ch
        omega

/-! What `dir_read_next` consumes and produces. -/

theorem dirReadNext_mem (base : Path) : ∀ (l : List Name) (nm : Name),
    nm ∈ (dirReadNext base l).2 → nm ∈ l
  | [], nm, h => by simp [dirReadNext] at h
  | x :: rest, nm, h => by
    rw [dirReadNext] at h
    by_cases hs : isSentinel x = true
    · rw [if_pos hs] at h
      exact List.mem_cons_of_mem x (dirReadNext_mem base rest nm h)
    · rw [if_neg hs] at h
      exact List.mem_cons_of_mem x h

theorem dirReadNext_fst_cases (base : Path) : ∀ l : List Name,
    (dirReadNext base l).1 = none ∨
    ∃ nm, nm ∈ l ∧ isSentinel nm = false ∧
      (dirReadNext base l).1 = some (Path.append base (Path.ofString nm .native))
  | [] => Or.inl rfl
  | x :: rest => by
    rw [dirReadNext]
    by_cases hs : isSentinel x = true
    · rw [if_pos hs]
      rcases dirReadNext_fst_cases base rest with h | ⟨nm, hm, hns, he⟩
      · exact Or.inl h
      · exact Or.inr ⟨nm, List.mem_cons_of_mem x hm, hns, he⟩
    · rw [if_neg hs]
      exact Or.inr ⟨x, by simp, by simpa using hs, rfl⟩

theorem listingOf_mem (ch : List (Name × FsNode)) (nm : Name)
    (h : nm ∈ listingOf ch) : isSentinel nm = true ∨ nm ∈ ch.map Prod.fst := by
  simp only [listingOf, List.mem_cons] at h
  rcases h with h | h | h
  · left; subst h; rfl
  · left; subst h; rfl
  · right; exact h

/-! Closing every stacked handle empties the open set. -/

theorem foldl_closeH_openIds : ∀ (hs : List (Nat × List Name)) (w : World),
    w.openIds = hs.map Prod.fst → w.openIds.Nodup →
    (hs.foldl (fun w h => w.closeH h.1) w).openIds = []
  | [], _, hid, _ => hid
  | h :: t, w, hid, hnd => by
    rw [List.foldl_cons]
    have hop : (w.closeH h.1).openIds = t.map Prod.fst := by
      show w.openIds.erase h.1 = t.map Prod.fst
      rw [hid, List.map_cons, List.erase_cons_head]
    refine foldl_closeH_openIds t _ hop ?_
    rw [hop]
    rw [hid, List.map_cons] at hnd
    exact hnd.of_cons

/-! The invariant is preserved by each transition of the cursor. -/

theorem rdirAdvanceTop_inv (root : FsNode) (abs : Bool) (bsegs : List (List Char))
    (fmt : Format) (hfmt : Path.path_fmt fmt = .posix) (hb : bsegs ≠ [])
    (hwb : ∀ s ∈ bsegs, WfName s)
    (st : RState) (w' : World) (top : Nat × List Name) (tl : List (Nat × List Name))
    (rel : List Name)
    (hh : st.p_handles = top :: tl)
    (hid : w'.openIds = st.p_handles.map Prod.fst)
    (hbound : ∀ i ∈ w'.openIds, i < w'.nextId)
    (hnd : w'.openIds.Nodup)
    (hents : ∀ f ∈ st.p_handles, ∀ nm ∈ f.2, isSentinel nm = true ∨ WfName nm)
    (hlen : st.p_handles.length = rel.length + 1)
    (hwrel : ∀ s ∈ rel, WfName s)
    (hdirs : ∀ k, k ≤ rel.length → IsDirAt root (rel.take k))
    (hdir : st.p_dir = (⟨renderPosix abs (bsegs ++ rel), fmt⟩ : Path)) :
    RInv root abs bsegs fmt (rdirAdvanceTop st w' top tl).1
      (rdirAdvanceTop st w' top tl).2 := by
  have hwseg : ∀ s ∈ bsegs ++ rel, WfName s := by
    intro s hs
    rcases List.mem_append.mp hs with h | h
    · exact hwb s h
    · exact hwrel s h
  have hbsne : bsegs ++ rel ≠ [] := by
    intro hcon
    exact hb (List.append_eq_nil.mp hcon).1
  simp only [rdirAdvanceTop]
  cases hfc : (dirReadNext st.p_dir top.2).1 with
  | some cur =>
    -- the innermost handle yields a further sibling
    obtain ⟨nm2, hm2, hns2, he2⟩ :
        ∃ nm2, nm2 ∈ top.2 ∧ isSentinel nm2 = false ∧
          (dirReadNext st.p_dir top.2).1 =
            some (Path.append st.p_dir (Path.ofString nm2 .native)) := by
      rcases dirReadNext_fst_cases st.p_dir top.2 with h | h
      · rw [hfc] at h; cases h
      · exact h
    have hwnm2 : WfName nm2 := by
      rcases hents top (by rw [hh]; exact List.mem_cons_self _ _) nm2 hm2 with h | h
      · rw [h] at hns2; cases hns2
      · exact h
    have hcur : cur = (⟨renderPosix abs ((bsegs ++ rel) ++ [nm2]), fmt⟩ : Path) := by
      rw [hfc] at he2
      injection he2 with he2
      rw [he2, hdir, Path.ofString_wfName nm2 .native rfl hwnm2]
      exact Path.append_render_posix abs (bsegs ++ rel) nm2 fmt .native hfmt rfl
        hbsne hwseg hwnm2
    refine ⟨by rw [hid, hh]; rfl, hbound, hnd, ?_, Or.inr ⟨rel, ?_, hwrel, hdirs, hdir, ?_⟩⟩
    · intro f hf nm hnm
      rcases List.mem_cons.mp hf with h | h
      · subst h
        exact hents top (by rw [hh]; exact List.mem_cons_self _ _) nm
          (dirReadNext_mem st.p_dir top.2 nm hnm)
      · exact hents f (by rw [hh]; exact List.mem_cons_of_mem top h) nm hnm
    · show tl.length + 1 = rel.length + 1
      rw [hh] at hlen
      simpa using hlen
    · exact Or.inr ⟨nm2, hwnm2, by rw [hcur]⟩
  | none =>
    -- the innermost handle is exhausted: close and pop it
    cases tl with
    | nil =>
      refine ⟨?_, ?_, ?_, by intro f hf nm hnm; simp at hf, Or.inl ⟨rfl, rfl⟩⟩
      · show (w'.closeH top.1).openIds = ([] : List (Nat × List Name)).map Prod.fst
        show w'.openIds.erase top.1 = []
        rw [hid, hh]
        simp [List.erase_cons_head]
      · intro i hi
        exact hbound i (List.mem_of_mem_erase hi)
      · exact hnd.erase top.1
    | cons t2 tl2 =>
      have hrelne : rel ≠ [] := by
        intro hcon
        rw [hh, hcon] at hlen
        simp at hlen
      obtain ⟨init, lastSeg, hrel⟩ : ∃ i l, rel = i ++ [l] :=
        ⟨rel.dropLast, rel.getLast hrelne, (List.dropLast_append_getLast hrelne).symm⟩
      have hwinit : ∀ s ∈ bsegs ++ init, WfName s := by
        intro s hs
        rcases List.mem_append.mp hs with h | h
        · exact hwb s h
        · exact hwrel s (by rw [hrel]; exact List.mem_append_left _ h)
      have hbine : bsegs ++ init ≠ [] := by
        intro hcon
        exact hb (List.append_eq_nil.mp hcon).1
      have hpd : Path.remove_name st.p_dir =
          (⟨renderPosix abs (bsegs ++ init), fmt⟩ : Path) := by
        rw [hdir, hrel, show bsegs ++ (init ++ [lastSeg]) =
          (bsegs ++ init) ++ [lastSeg] from by rw [List.append_assoc]]
        refine Path.remove_name_render_posix abs (bsegs ++ init) lastSeg fmt hfmt
          hbine ?_
        intro s hs
        rcases List.mem_append.mp hs with h | h
        · exact hwinit s h
        · simp at h
          rw [h]
          exact hwrel lastSeg (by rw [hrel]; exact List.mem_append_right _ (by simp))
      have hents2 : ∀ nm ∈ t2.2, isSentinel nm = true ∨ WfName nm :=
        hents t2 (by rw [hh]; exact List.mem_cons_of_mem top (List.mem_cons_self _ _))
      have hid2 : (w'.closeH top.1).openIds = (t2 :: tl2).map Prod.fst := by
        show w'.openIds.erase top.1 = (t2 :: tl2).map Prod.fst
        rw [hid, hh, List.map_cons, List.erase_cons_head]
      refine ⟨hid2, ?_, ?_, ?_, Or.inr ⟨init, ?_, ?_, ?_, hpd, ?_⟩⟩
      · intro i hi
        exact hbound i (List.mem_of_mem_erase hi)
      · exact hnd.erase top.1
      · intro f hf nm hnm
        rcases List.mem_cons.mp hf with h | h
        · subst h
          exact hents2 nm (dirReadNext_mem _ t2.2 nm hnm)
        · exact hents f (by rw [hh]
                            exact List.mem_cons_of_mem top (List.mem_cons_of_mem t2 h))
            nm hnm
      · show tl2.length + 1 = init.length + 1
        rw [hh, hrel] at hlen
        simp at hlen
        omega
      · intro s hs
        exact hwrel s (by rw [hrel]; exact List.mem_append_left _ hs)
      · intro k hk
        have htk : init.take k = rel.take k := by
          rw [hrel, List.take_append_of_le_length hk]
        rw [htk]
        exact hdirs k (by rw [hrel]; simp; omega)
      · rcases dirReadNext_fst_cases (Path.remove_name st.p_dir) t2.2 with
          h | ⟨nm3, hm3, hns3, he3⟩
        · exact Or.inl h
        · have hwnm3 : WfName nm3 := by
            rcases hents2 nm3 hm3 with h' | h'
            · rw [h'] at hns3; cases hns3
            · exact h'
          refine Or.inr ⟨nm3, hwnm3, ?_⟩
          show (dirReadNext (Path.remove_name st.p_dir) t2.2).1 = _
          rw [he3, hpd, Path.ofString_wfName nm3 .native rfl hwnm3]
          rw [Path.append_render_posix abs (bsegs ++ init) nm3 fmt .native hfmt rfl
            hbine hwinit hwnm3]

theorem rdirReadNext_inv (root : FsNode) (abs : Bool) (bsegs : List (List Char))
    (fmt : Format) (hfmt : Path.path_fmt fmt = .posix) (hb : bsegs ≠ [])
    (hwb : ∀ s ∈ bsegs, WfName s) (hwf : root.wfB = true)
    (st : RState) (w : World) (hinv : RInv root abs bsegs fmt st w) :
    ∃ st' w', rdirReadNext (fsQuery root (renderPosix abs bsegs)) st w =
        some (st', w') ∧ RInv root abs bsegs fmt st' w' := by
  obtain ⟨hid, hbound, hnd, hents, hrest⟩ := hinv
  have hbne : renderPosix abs bsegs ≠ [] :=
    Path.renderPosix_ne_nil abs bsegs (fun _ => hb) hwb
  cases hh : st.p_handles with
  | nil =>
    refine ⟨st, w, ?_, hid, hbound, hnd, hents, hrest⟩
    unfold rdirReadNext
    rw [hh]
  | cons top tl =>
    rcases hrest with ⟨hnil, _⟩ | ⟨rel, hlen, hwrel, hdirs, hdir, hcur⟩
    · rw [hh] at hnil
      exact absurd hnil (by simp)
    have hwseg : ∀ s ∈ bsegs ++ rel, WfName s := by
      intro s hs
      rcases List.mem_append.mp hs with h | h
      · exact hwb s h
      · exact hwrel s h
    have hbsne : bsegs ++ rel ≠ [] := by
      intro hcon
      exact hb (List.append_eq_nil.mp hcon).1
    simp only [rdirReadNext, hh]
    by_cases hd : isDirectoryM (fsQuery root (renderPosix abs bsegs))
        (entryRaw st.p_current) = true
    · -- the current entry names a directory of the tree: recurse into it
      rcases hcur with hcn | ⟨nm, hwnm, hcs⟩
      · exfalso
        rw [hcn] at hd
        unfold isDirectoryM at hd
        rw [show entryRaw none = [] from rfl] at hd
        rw [fsQuery_nil root _ hbne] at hd
        cases hd
      have hwrnm : ∀ s ∈ rel ++ [nm], WfName s := by
        intro s hs
        rcases List.mem_append.mp hs with h | h
        · exact hwrel s h
        · simp at h; subst h; exact hwnm
      have hq : fsQuery root (renderPosix abs bsegs)
          (renderPosix abs ((bsegs ++ rel) ++ [nm])) =
            lookupTree root (rel ++ [nm]) := by
        rw [List.append_assoc]
        exact fsQuery_render root abs bsegs (rel ++ [nm]) hb (by simp) hwrnm
      rw [hcs] at hd ⊢
      rw [show entryRaw (some (⟨renderPosix abs ((bsegs ++ rel) ++ [nm]), fmt⟩ : Path)) =
        renderPosix abs ((bsegs ++ rel) ++ [nm]) from rfl] at hd ⊢
      have hd' := hd
      unfold isDirectoryM at hd'
      rw [hq] at hd'
      cases hlk : lookupTree root (rel ++ [nm]) with
      | none => rw [hlk] at hd'; cases hd'
      | some t =>
        cases t with
        | file => rw [hlk] at hd'; cases hd'
        | dir ch2 =>
          have hwch2 : childrenWfB ch2 = true :=
            lookupTree_wfB (rel ++ [nm]) root (.dir ch2) hwf hlk
          have hop : opendirM (fsQuery root (renderPosix abs bsegs))
              (renderPosix abs ((bsegs ++ rel) ++ [nm])) = some (listingOf ch2) := by
            unfold opendirM
            rw [hq, hlk]
          rw [if_pos hd, hop]
          simp only [Option.getD_some]
          have hentsL : ∀ nm' ∈ listingOf ch2, isSentinel nm' = true ∨ WfName nm' := by
            intro nm' hnm'
            rcases listingOf_mem ch2 nm' hnm' with h | h
            · exact Or.inl h
            · exact Or.inr (childrenWfB_name nm' ch2 hwch2 h)
          cases hfc : (dirReadNext
              (⟨renderPosix abs ((bsegs ++ rel) ++ [nm]), fmt⟩ : Path)
              (listingOf ch2)).1 with
          | some cur2 =>
            -- the subdirectory is non-empty: push its handle
            obtain ⟨nm2, hm2, hns2, he2⟩ :
                ∃ nm2, nm2 ∈ listingOf ch2 ∧ isSentinel nm2 = false ∧
                  (dirReadNext (⟨renderPosix abs ((bsegs ++ rel) ++ [nm]), fmt⟩ : Path)
                    (listingOf ch2)).1 =
                    some (Path.append
                      (⟨renderPosix abs ((bsegs ++ rel) ++ [nm]), fmt⟩ : Path)
                      (Path.ofString nm2 .native)) := by
              rcases dirReadNext_fst_cases
                  (⟨renderPosix abs ((bsegs ++ rel) ++ [nm]), fmt⟩ : Path)
                  (listingOf ch2) with h | h
              · rw [hfc] at h; cases h
              · exact h
            have hwnm2 : WfName nm2 := by
              rcases hentsL nm2 hm2 with h | h
              · rw [h] at hns2; cases hns2
              · exact h
            have hwsg2 : ∀ s ∈ (bsegs ++ rel) ++ [nm], WfName s := by
              intro s hs
              rcases List.mem_append.mp hs with h | h
              · exact hwseg s h
              · simp at h; subst h; exact hwnm
            have hcur2 : cur2 = (⟨renderPosix abs
                (((bsegs ++ rel) ++ [nm]) ++ [nm2]), fmt⟩ : Path) := by
              rw [hfc] at he2
              injection he2 with he2
              rw [he2, Path.ofString_wfName nm2 .native rfl hwnm2]
              exact Path.append_render_posix abs ((bsegs ++ rel) ++ [nm]) nm2 fmt
                .native hfmt rfl (by simp [hbsne]) hwsg2 hwnm2
            refine ⟨_, _, rfl, ?_, ?_, ?_, ?_,
              Or.inr ⟨rel ++ [nm], ?_, ?_, ?_, ?_, ?_⟩⟩
            · show (w.nextId :: w.openIds) = _
              rw [hid, hh]
              rfl
            · intro i hi
              rcases List.mem_cons.mp hi with h | h
              · subst h
                exact Nat.lt_succ_self _
              · exact Nat.lt_succ_of_lt (hbound i h)
            · refine List.Nodup.cons ?_ hnd
              intro hcon
              exact absurd (hbound _ hcon) (Nat.lt_irrefl _)
            · intro f hf nm' hnm'
              rcases List.mem_cons.mp hf with h | h
              · subst h
                exact hentsL nm' (dirReadNext_mem _ (listingOf ch2) nm' hnm')
              · exact hents f (by rw [hh]; exact hh ▸ h) nm' hnm'
            · show (top :: tl).length + 1 = (rel ++ [nm]).length + 1
              rw [hh] at hlen
              simp only [List.length_append, List.length_cons]
              simp at hlen ⊢
              omega
            · intro s hs
              rcases List.mem_append.mp hs with h | h
              · exact hwrel s h
              · simp at h; subst h; exact hwnm
            · intro k hk
              by_cases hkle : k ≤ rel.length
              · rw [List.take_append_of_le_length hkle]
                exact hdirs k hkle
              · have hkeq : k = (rel ++ [nm]).length := by
                  simp at hk ⊢
                  simp at hkle
                  omega
                rw [hkeq, List.take_length]
                exact ⟨ch2, hlk⟩
            · show (⟨renderPosix abs ((bsegs ++ rel) ++ [nm]), fmt⟩ : Path) =
                (⟨renderPosix abs (bsegs ++ (rel ++ [nm])), fmt⟩ : Path)
              rw [List.append_assoc]
            · refine Or.inr ⟨nm2, hwnm2, ?_⟩
              rw [hcur2]
              rw [show bsegs ++ (rel ++ [nm]) = (bsegs ++ rel) ++ [nm] from
                (List.append_assoc _ _ _).symm]
          | none =>
            -- the subdirectory is empty: close its fresh handle again and
            -- advance a sibling instead
            refine ⟨_, _, rfl, ?_⟩
            refine rdirAdvanceTop_inv root abs bsegs fmt hfmt hb hwb st
              _ top tl rel hh ?_ ?_ ?_ hents hlen hwrel hdirs hdir
            · show (w.nextId :: w.openIds).erase w.nextId = _
              rw [List.erase_cons_head]
              exact hid
            · intro i hi
              have hi' : i ∈ w.openIds := by
                have hE : ((w.alloc.2.closeH w.alloc.1).openIds : List Nat) =
                    w.openIds := by
                  show (w.nextId :: w.openIds).erase w.nextId = w.openIds
                  rw [List.erase_cons_head]
                rw [hE] at hi
                exact hi
              exact Nat.lt_succ_of_lt (hbound i hi')
            · show ((w.nextId :: w.openIds).erase w.nextId).Nodup
              rw [List.erase_cons_head]
              exact hnd
    · -- the current entry is not a directory: advance a sibling
      rw [if_neg hd]
      exact ⟨_, _, rfl, rdirAdvanceTop_inv root abs bsegs fmt hfmt hb hwb st
        w top tl rel hh hid hbound hnd hents hlen hwrel hdirs hdir⟩

theorem rdirOpen_inv (root : FsNode) (ch0 : List (Name × FsNode)) (abs : Bool)
    (bsegs : List (List Char)) (fmt : Format) (n0 : Nat)
    (hroot : root = .dir ch0) (hwf : root.wfB = true)
    (hfmt : Path.path_fmt fmt = .posix) (hb : bsegs ≠ [])
    (hwb : ∀ s ∈ bsegs, WfName s) :
    ∃ st w, rdirOpen (fsQuery root (renderPosix abs bsegs))
        (⟨renderPosix abs bsegs, fmt⟩ : Path) ⟨n0, []⟩ = some (st, w) ∧
      RInv root abs bsegs fmt st w := by
  have hop : opendirM (fsQuery root (renderPosix abs bsegs))
      (renderPosix abs bsegs) = some (listingOf ch0) := by
    unfold opendirM
    rw [fsQuery_render_self, hroot]
  have hwch0 : childrenWfB ch0 = true := by
    rw [hroot] at hwf
    exact hwf
  simp only [rdirOpen, hop, World.alloc]
  refine rdirReadNext_inv root abs bsegs fmt hfmt hb hwb hwf _ _
    ⟨rfl, ?_, by simp, ?_, Or.inr ⟨[], by simp, by simp, ?_, ?_, Or.inl rfl⟩⟩
  · intro i hi
    simp at hi
    subst hi
    exact Nat.lt_succ_self _
  · intro f hf nm hnm
    simp at hf
    subst hf
    rcases listingOf_mem ch0 nm hnm with h | h
    · exact Or.inl h
    · exact Or.inr (childrenWfB_name nm ch0 hwch0 h)
  · intro k hk
    simp at hk
    subst hk
    exact ⟨ch0, by rw [hroot]; rfl⟩
  · show (⟨renderPosix abs bsegs, fmt⟩ : Path) =
      (⟨renderPosix abs (bsegs ++ []), fmt⟩ : Path)
    rw [List.append_nil]

theorem rdirSteps_inv (root : FsNode) (abs : Bool) (bsegs : List (List Char))
    (fmt : Format) (hfmt : Path.path_fmt fmt = .posix) (hb : bsegs ≠ [])
    (hwb : ∀ s ∈ bsegs, WfName s) (hwf : root.wfB = true) :
    ∀ (k : Nat) (st : RState) (w : World), RInv root abs bsegs fmt st w →
    ∃ st' w', rdirSteps (fsQuery root (renderPosix abs bsegs)) k (some (st, w)) =
        some (st', w') ∧ RInv root abs bsegs fmt st' w'
  | 0, st, w, h => ⟨st, w, rfl, h⟩
  | k + 1, st, w, h => by
    obtain ⟨st1, w1, he1, h1⟩ :=
      rdirReadNext_inv root abs bsegs fmt hfmt hb hwb hwf st w h
    rw [rdirSteps]
    have hbind : (some (st, w)).bind
        (fun sw => rdirReadNext (fsQuery root (renderPosix abs bsegs)) sw.1 sw.2) =
        some (st1, w1) := he1
    rw [hbind]
    exact rdirSteps_inv root abs bsegs fmt hfmt hb hwb hwf k st1 w1 h1

/-- **C4** (counterexample): over the tree `r/d/f` (depth 2), after the
second advance the cursor's current entry is cleared — the range presents
itself as exhausted — while the handle stack still holds the (open) root
handle: the stack is not empty exactly when the cursor is exhausted. -/
theorem c4_counterexample :
    ((rdirTrace (fsQuery (.dir [(['d'], .dir [(['f'], .file)])]) ['r'])
        (⟨['r'], .native⟩ : Path) 2).map
      (fun sw => (sw.1.p_current, decide (sw.1.p_handles = []), sw.2.openIds))) =
      some (none, false, [0]) := by
  decide

/-- **C4** (amended): over any well-formed finite directory tree mounted at
a normalized base path, a recursive cursor run (open, then `k` advances)
never aborts; the open handle ids are exactly the ids on the handle stack
(so the stack holds only open handles and every pop closed the popped
handle); the stack never exceeds the tree's depth; an empty stack does mean
the cursor is exhausted (the converse fails, `c4_counterexample`); and
closing the cursor closes every remaining handle. -/
theorem c4_handle_stack_invariant (root : FsNode) (ch0 : List (Name × FsNode))
    (abs : Bool) (bsegs : List (List Char)) (fmt : Format) (k : Nat)
    (hroot : root = .dir ch0) (hwf : root.wfB = true)
    (hfmt : Path.path_fmt fmt = .posix) (hb : bsegs ≠ [])
    (hwb : ∀ s ∈ bsegs, WfName s) :
    ∃ st w, rdirTrace (fsQuery root (renderPosix abs bsegs))
        (⟨renderPosix abs bsegs, fmt⟩ : Path) k = some (st, w) ∧
      w.openIds = st.p_handles.map Prod.fst ∧
      st.p_handles.length ≤ root.depth ∧
      (st.p_handles = [] → st.p_current = none) ∧
      (rdirClose st w).2.openIds = [] := by
  obtain ⟨st0, w0, he0, h0⟩ :=
    rdirOpen_inv root ch0 abs bsegs fmt 0 hroot hwf hfmt hb hwb
  obtain ⟨st, w, he, hinv⟩ :=
    rdirSteps_inv root abs bsegs fmt hfmt hb hwb hwf k st0 w0 h0
  refine ⟨st, w, ?_, ?_, ?_, ?_, ?_⟩
  · unfold rdirTrace
    rw [he0]
    exact he
  · exact hinv.1
  · rcases hinv.2.2.2.2 with ⟨hE, -⟩ | ⟨rel, hlen, -, hdirs, -, -⟩
    · rw [hE]
      exact Nat.zero_le _
    · obtain ⟨ch', hlk⟩ := hdirs rel.length (Nat.le_refl _)
      rw [List.take_length] at hlk
      have hdep := lookupTree_depth rel root (.dir ch') hlk
      have : 1 ≤ (FsNode.dir ch').depth := by
        show 1 ≤ 1 + childrenDepth ch'
        omega
      omega
  · intro hE
    rcases hinv.2.2.2.2 with ⟨-, hc⟩ | ⟨rel, hlen, -, -, -, -⟩
    · exact hc
    · rw [hE] at hlen
      simp at hlen
  · exact foldl_closeH_openIds st.p_handles w hinv.1 hinv.2.2.1

/-- Witness for `c4_handle_stack_invariant`: the depth-2 tree `r/d/f` after
three advances (the fully-popped state). -/
theorem c4_witness :
    ∃ st w, rdirTrace
        (fsQuery (FsNode.dir [(['d'], .dir [(['f'], .file)])])
          (renderPosix false [['r']]))
        (⟨renderPosix false [['r']], .posix⟩ : Path) 3 = some (st, w) ∧
      w.openIds = st.p_handles.map Prod.fst ∧
      st.p_handles.length ≤ (FsNode.dir [(['d'], .dir [(['f'], .file)])]).depth ∧
      (st.p_handles = [] → st.p_current = none) ∧
      (rdirClose st w).2.openIds = [] :=
  c4_handle_stack_invariant (FsNode.dir [(['d'], .dir [(['f'], .file)])])
    [(['d'], .dir [(['f'], .file)])] false [['r']] .posix 3 rfl (by decide) rfl
    (by decide) (by decide)

end Fs

/-- Witness for `c10_open_guard`: an already-open stream. -/
theorem c10_witness :
    ((⟨some ⟨7, []⟩, none, []⟩ : Fs.DStream).p_d.isSome = true ∨
      ([] : List Char).length > Fs.FILENAME_MAX) ∧
    Fs.DStream.open ⟨some ⟨7, []⟩, none, []⟩ [] none ⟨8, [7]⟩ =
      (false, ⟨some ⟨7, []⟩, none, []⟩, ⟨8, [7]⟩) :=
  ⟨Or.inl (by decide), c10_open_guard _ _ _ _ (Or.inl (by decide))⟩

end Octastd
